import Mathlib

set_option maxHeartbeats 1000000
set_option maxRecDepth 4000

namespace Blinko

/- Shallow embedding of the note and follows routers of the blinko server
(src/server/routers/note.ts and src/server/routers/follows.ts). Strings are
List Char; relational rows are list elements; prisma queries become list
operations; autoincrement ids are explicit counters. -/

/-! ## Hashtag extraction (extractHashtags in note.ts) -/

/-- Membership in the JavaScript \s class, for the code points that can occur
in the inputs considered here (space, tab, LF, VT, FF, CR, NBSP). -/
def jsWs (c : Char) : Bool :=
  decide (c = ' ' ∨ c = '\t' ∨ c = '\n' ∨ c = '\x0b' ∨ c = '\x0c' ∨ c = '\r' ∨ c = ' ')

/-- The backtick character. -/
def btick : Char := Char.ofNat 96

/-- Does the list start with a triple-backtick fence? -/
def startsFence : List Char → Bool
  | c1 :: c2 :: c3 :: _ => decide (c1 = btick ∧ c2 = btick ∧ c3 = btick)
  | _ => false

/-- Index just past the next closing fence, if any: the lazy search of the
regex for the closing three backticks. -/
def findCloseIdx : List Char → Option Nat
  | [] => none
  | c :: rest =>
    if startsFence (c :: rest) then some 3
    else (findCloseIdx rest).map (fun i => i + 1)

/-- input.replace of every lazily matched fenced block by the empty string,
scanning left to right. A fence with no closing counterpart is kept. -/
def removeCodeBlocks : List Char → List Char
  | [] => []
  | c :: rest =>
    if startsFence (c :: rest) then
      match findCloseIdx (rest.drop 2) with
      | some i => removeCodeBlocks ((rest.drop 2).drop i)
      | none => c :: rest
    else c :: removeCodeBlocks rest
  termination_by l => l.length
  decreasing_by
    · simp only [List.length_drop, List.length_cons]
      omega
    · simp only [List.length_cons]
      omega

/-- A character allowed inside a hashtag token: the class [^\s#]. -/
def tagChar (c : Char) : Bool := decide (jsWs c = false ∧ c ≠ '#')

/-- The lookbehind (?<=\s|^) evaluated on the reversed consumed prefix. -/
def boundaryOk : List Char → Bool
  | [] => true
  | c :: _ => jsWs c

/-- The lookbehind (?<!:\/\/) evaluated on the reversed consumed prefix. -/
def urlBefore : List Char → Bool
  | c1 :: c2 :: c3 :: _ => decide (c1 = '/' ∧ c2 = '/' ∧ c3 = ':')
  | _ => false

/-- The lookahead (?=\s|$). -/
def wsOrEnd : List Char → Bool
  | [] => true
  | c :: _ => jsWs c

/-- Global matching of (?<!:\/\/)(?<=\s|^)#[^\s#]+(?=\s|$): pre is the
reversed consumed prefix (for the lookbehinds); on a successful match the scan
resumes right after the token, otherwise it advances one character. The greedy
run cannot backtrack successfully because every shorter run is followed by a
run character, which fails the lookahead. -/
def scanTags (pre : List Char) : List Char → List (List Char)
  | [] => []
  | c :: rest =>
    if c = '#' ∧ boundaryOk pre = true ∧ urlBefore pre = false then
      let run := rest.takeWhile tagChar
      let rest1 := rest.dropWhile tagChar
      if run ≠ [] ∧ wsOrEnd rest1 = true then
        ('#' :: run) :: scanTags (run.reverse ++ '#' :: pre) rest1
      else
        scanTags (c :: pre) rest
    else
      scanTags (c :: pre) rest
  termination_by l => l.length
  decreasing_by
    · have h0 : List.Sublist (List.dropWhile tagChar rest) rest := List.dropWhile_sublist tagChar
      have h1 : (List.dropWhile tagChar rest).length ≤ rest.length := h0.length_le
      simp only [List.length_cons]
      omega
    · simp only [List.length_cons]
      omega
    · simp only [List.length_cons]
      omega

/-- extractHashtags: remove fenced code blocks, then collect the regex
matches. -/
def extractHashtags (input : List Char) : List (List Char) :=
  scanTags [] (removeCodeBlocks input)

/-- A triple-backtick fence, for statements about code blocks. -/
def fence : List Char := [btick, btick, btick]

/-! ## Relational store model for the note router -/

/-- A tag row: id, name, parent tag id (0 at the root), owning account. -/
structure Tag where
  id : Nat
  name : List Char
  parent : Nat
  accountId : Nat
deriving DecidableEq, Repr

/-- A note row with the fields the verified routines read or write. -/
structure Note where
  id : Nat
  accountId : Nat
  content : List Char
  ntype : Int
  isArchived : Bool
  isTop : Bool
  isShare : Bool
  isRecycle : Bool
deriving DecidableEq, Repr

/-- An attachment row. -/
structure Attachment where
  id : Nat
  noteId : Nat
  name : List Char
  path : List Char
  size : Nat
deriving DecidableEq, Repr

/-- The slice of the relational store touched by the note routines.
tagsToNote rows are (tagId, noteId) pairs and noteRefs rows are
(fromNoteId, toNoteId) pairs; the next* fields model the autoincrement id
sequences. -/
structure DB where
  notes : List Note
  tags : List Tag
  tagsToNote : List (Nat × Nat)
  noteRefs : List (Nat × Nat)
  attachments : List Attachment
  nextTagId : Nat
  nextNoteId : Nat
  nextAttId : Nat
deriving DecidableEq, Repr

/-- The shape of helper.buildHashTagTreeFromHashString output: a tag tree
node with a name and child nodes. -/
inductive TagTreeNode where
  | node (name : List Char) (children : List TagTreeNode)

/-- All names occurring in a forest. -/
def forestNames : List TagTreeNode → List (List Char)
  | [] => []
  | TagTreeNode.node n cs :: rest => n :: (forestNames cs ++ forestNames rest)
  termination_by l => sizeOf l

/-- prisma.tag.findFirst by (name, parent, accountId). -/
def findTag (tags : List Tag) (name : List Char) (parent acct : Nat) : Option Tag :=
  tags.find? (fun t => decide (t.name = name ∧ t.parent = parent ∧ t.accountId = acct))

/-- The parent id read off the parent tag object: parentTag?.id ?? 0. -/
def pidOf : Option Tag → Nat
  | some t => t.id
  | none => 0

/-- tag.findFirst by (name, parent, account) followed by tag.create of a
missing tag, whose id comes from the autoincrement counter. -/
def findOrCreate (acct : Nat) (name : List Char) (pid : Nat) (db : DB) : Tag × DB :=
  match findTag db.tags name pid acct with
  | some t => (t, db)
  | none =>
    (⟨db.nextTagId, name, pid, acct⟩,
     { db with tags := db.tags ++ [⟨db.nextTagId, name, pid, acct⟩],
               nextTagId := db.nextTagId + 1 })

/-- tagsToNote.findFirst for (tag, noteId) followed by tagsToNote.create of a
missing association; no note id (or a falsy one) skips the step. -/
def ensureRel (noteId : Option Nat) (tid : Nat) (db : DB) : DB :=
  match noteId with
  | some nid =>
    if (tid, nid) ∈ db.tagsToNote then db
    else { db with tagsToNote := db.tagsToNote ++ [(tid, nid)] }
  | none => db

/-- The handleAddTags closure of note.upsert: walk the tag tree; find or
create each tag by (name, parent id, account); when a note id is given,
create the missing (tag, note) association; recurse into the children with
the handled tag as parent; push each handled tag onto the newTags accumulator
(children before their parent, mirroring the push order). Only the id of the
parent tag object is read. -/
def handleAddTags (acct : Nat) (noteId : Option Nat) :
    List TagTreeNode → Option Tag → DB → List Tag → DB × List Tag
  | [], _, db, acc => (db, acc)
  | TagTreeNode.node name children :: rest, parentTag, db, acc =>
    let fc := findOrCreate acct name (pidOf parentTag) db
    let r1 := handleAddTags acct noteId children (some fc.1) (ensureRel noteId fc.1.id fc.2) acc
    handleAddTags acct noteId rest parentTag r1.1 (r1.2 ++ [fc.1])
  termination_by forest => sizeOf forest

/-! ## Composite `name<key>parent` keys and their parsing -/

/-- The literal delimiter of the composite tag keys. -/
def keyDelim : List Char := ['<', 'k', 'e', 'y', '>']

/-- Decimal rendering of a natural number, as template-string interpolation of
the numeric parent field produces it. -/
def natToChars (n : Nat) : List Char :=
  if n < 10 then [Char.ofNat (48 + n)]
  else natToChars (n / 10) ++ [Char.ofNat (48 + n % 10)]
  termination_by n
  decreasing_by exact Nat.div_lt_self (by omega) (by omega)

/-- The composite key template `${name}<key>${parent}`. -/
def keyOf (name : List Char) (parent : Nat) : List Char :=
  name ++ keyDelim ++ natToChars parent

/-- Does pat occur at the head of the second list? -/
def startsWithPat : List Char → List Char → Bool
  | [], _ => true
  | _ :: _, [] => false
  | p :: ps, x :: xs => decide (p = x) && startsWithPat ps xs

/-- Does keyDelim occur anywhere in the list? -/
def hasDelim : List Char → Bool
  | [] => false
  | c :: rest => startsWithPat keyDelim (c :: rest) || hasDelim rest

/-- Split at the first keyDelim occurrence: the parts before and after it,
or none when the delimiter does not occur. -/
def splitAtDelim : List Char → Option (List Char × List Char)
  | [] => none
  | c :: rest =>
    if startsWithPat keyDelim (c :: rest) then some ([], (c :: rest).drop 5)
    else
      match splitAtDelim rest with
      | some pq => some (c :: pq.1, pq.2)
      | none => none

/-- The part before the first keyDelim occurrence (all of the list when it is
absent): how parts[1] of split('<key>') relates to the tail after the first
delimiter. -/
def firstPart (l : List Char) : List Char :=
  match splitAtDelim l with
  | some pq => pq.1
  | none => l

/-- Is c a decimal digit? -/
def isDigitCh (c : Char) : Bool := decide (48 ≤ c.toNat ∧ c.toNat ≤ 57)

/-- JS Number(...) on the strings arising from split composite keys: digit
strings (the empty string giving 0, as Number('') does); none models NaN on
anything else. -/
def charsToNat? (l : List Char) : Option Nat :=
  if l.all isDigitCh then some (l.foldl (fun a c => a * 10 + (c.toNat - 48)) 0) else none

/-- Split a composite key with split('<key>'), take parts[0] as name and
parts[1] as parent, convert the parent with Number, and find the first tag
with that name and parent. none covers a key without delimiter (parts[1]
undefined), a NaN parent and a failed find alike: in each case the source's
find yields undefined. -/
def parsedLookup (tags : List Tag) (k : List Char) : Option Tag :=
  match splitAtDelim k with
  | none => none
  | some pq =>
    match charsToNat? (firstPart pq.2) with
    | none => none
    | some p => tags.find? (fun t => decide (t.name = pq.1 ∧ t.parent = p))

/-- The ids of associations to delete, as
needToBeDeletedRelationTags.map(k => oldTags.find(...)!.id).filter(i => !!i)
computes them; none models the TypeError thrown by the non-null assertion
when some key has no matching old tag. -/
def delRelIds (oldTags : List Tag) (needDel : List (List Char)) : Option (List Nat) :=
  let opts := needDel.map (fun k => (parsedLookup oldTags k).map Tag.id)
  if opts.all Option.isSome then
    some (opts.reduceOption.filter (fun i => decide (i ≠ 0)))
  else none

/-- One iteration over needTobeAddedRelationTags: parse the key, look it up
in newTags, skip a falsy id, and create the association unless it already
exists (the P2002 unique-constraint conflict the source catches and
ignores). -/
def addRelStep (nid : Nat) (newTags : List Tag) (k : List Char) (db : DB) : DB :=
  match parsedLookup newTags k with
  | some t =>
    if t.id = 0 then db
    else if (t.id, nid) ∈ db.tagsToNote then db
    else { db with tagsToNote := db.tagsToNote ++ [(t.id, nid)] }
  | none => db

/-- The loop over needTobeAddedRelationTags. -/
def addRelLoop (nid : Nat) (newTags : List Tag) : List (List Char) → DB → DB
  | [], db => db
  | k :: ks, db => addRelLoop nid newTags ks (addRelStep nid newTags k db)

/-! ## note.upsert -/

/-- The upsert input after schema defaults; none models null or absent. -/
structure UpsertInput where
  content : Option (List Char)
  ntype : Int
  attachments : List (List Char × List Char × Nat)
  id : Option Nat
  isArchived : Option Bool
  isTop : Option Bool
  isShare : Option Bool
  isRecycle : Option Bool
  references : Option (List Nat)
deriving DecidableEq, Repr

/-- The conditional update object: each non-null flag overwrites, type -1
means unchanged, null content leaves the content alone. -/
def applyFlags (inp : UpsertInput) (n : Note) : Note :=
  { n with
    ntype := if inp.ntype ≠ -1 then inp.ntype else n.ntype
    isArchived := inp.isArchived.getD n.isArchived
    isTop := inp.isTop.getD n.isTop
    isShare := inp.isShare.getD n.isShare
    isRecycle := inp.isRecycle.getD n.isRecycle
    content := inp.content.getD n.content }

/-- prisma.notes lookup by id scoped to the account. -/
def findNote (db : DB) (nid acct : Nat) : Option Note :=
  db.notes.find? (fun n => decide (n.id = nid ∧ n.accountId = acct))

/-- The toNoteId list of a note's outgoing reference edges. -/
def outRefIds (db : DB) (nid : Nat) : List Nat :=
  (db.noteRefs.filter (fun r => decide (r.1 = nid))).map Prod.snd

/-- The tag ids associated with a note. -/
def noteTagIds (db : DB) (nid : Nat) : List Nat :=
  (db.tagsToNote.filter (fun r => decide (r.2 = nid))).map Prod.fst

/-- The tag rows joined onto a note's associations:
findMany({where: noteId, include: tag}).map(i => i.tag).filter(i => !!i). -/
def joinedTags (db : DB) (nid : Nat) : List Tag :=
  (db.tagsToNote.filter (fun r => decide (r.2 = nid))).filterMap
    (fun r => db.tags.find? (fun t => decide (t.id = r.1)))

/-- createMany of attachment rows for a note, drawing ids from the
autoincrement counter. -/
def addAttRows (nid : Nat) : List (List Char × List Char × Nat) → DB → DB
  | [], db => db
  | a :: rest, db =>
    addAttRows nid rest
      { db with attachments := db.attachments ++ [⟨db.nextAttId, nid, a.1, a.2.1, a.2.2⟩],
                nextAttId := db.nextAttId + 1 }

/-- Insert the input attachments whose path is not yet attached to the note
(path-based dedup of the update path). -/
def attachPhase (nid : Nat) (atts : List (List Char × List Char × Nat)) (db : DB) : DB :=
  let oldPaths := (db.attachments.filter (fun a => decide (a.noteId = nid))).map Attachment.path
  let addPaths := (atts.map (fun a => a.2.1)).filter (fun p => decide (p ∉ oldPaths))
  addAttRows nid (atts.filter (fun a => decide (a.2.1 ∈ addPaths))) db

/-- The update-path reconciliation of note.upsert after the note row update,
for non-null content: tag-tree add, key-based association diff, reference
diff, orphan tag cleanup, attachment insert, in source order. The source
guards the delete/create calls by emptiness; an empty batch is a no-op, so
the guards are dropped. Returns false, with the state reached so far, when
the source would throw the non-null assertion TypeError while mapping the
keys of associations to delete. -/
def upsertSync (acct : Nat) (tree : List TagTreeNode) (refs : List Nat)
    (atts : List (List Char × List Char × Nat)) (nid : Nat) (db : DB) : Bool × DB :=
  let oldTags := joinedTags db nid
  let har := handleAddTags acct (some nid) tree none db []
  let db1 := har.1
  let newTags := har.2
  let oldKeys := oldTags.map (fun t => keyOf t.name t.parent)
  let newKeys := newTags.map (fun t => keyOf t.name t.parent)
  let needAdd := newKeys.filter (fun k => decide (k ∉ oldKeys))
  let needDel := oldKeys.filter (fun k => decide (k ∉ newKeys))
  let oldRefIds := outRefIds db1 nid
  let refAdd := refs.filter (fun i => decide (i ∉ oldRefIds))
  let refDel := oldRefIds.filter (fun i => decide (i ∉ refs))
  match delRelIds oldTags needDel with
  | none => (false, db1)
  | some delIds =>
    let db2 := { db1 with
      tagsToNote := db1.tagsToNote.filter (fun r => decide (¬ (r.2 = nid ∧ r.1 ∈ delIds))) }
    let db3 := addRelLoop nid newTags needAdd db2
    let db4 := { db3 with noteRefs := db3.noteRefs ++ refAdd.map (fun t => (nid, t)) }
    let db5 := { db4 with
      noteRefs := db4.noteRefs.filter (fun r => decide (¬ (r.1 = nid ∧ r.2 ∈ refDel))) }
    let allTagIds : List Nat := oldTags.map Tag.id
    let usingT : List Nat := ((db5.tagsToNote.filter
      (fun r => decide (r.1 ∈ allTagIds))).map Prod.fst).filter (fun i => decide (i ≠ 0))
    let delTags := allTagIds.filter (fun i => decide (i ∉ usingT))
    let db6 := { db5 with
      tags := db5.tags.filter (fun t => decide (¬ (t.id ∈ delTags ∧ t.accountId = acct))) }
    (true, attachPhase nid atts db6)

/-- note.upsert. The tree argument stands for
helper.buildHashTagTreeFromHashString(extractHashtags(content)), whose helper
lives outside the verified sources, so the model takes its output as an
argument; two calls with the same content receive the same tree. On the
create path, isShare and isTop store `flag ? true : false`; isArchived and
isRecycle are not set by the source. Modelled from the spec: the prisma
schema (outside the sources) defaults isArchived and isRecycle to false, the
lifecycle of the spec starting every created note as active. Returns
(completed-without-throw, post-state); update of a missing note throws with
no write. -/
def upsertModel (acct : Nat) (tree : List TagTreeNode) (inp : UpsertInput) (db : DB) :
    Bool × DB :=
  match inp.id with
  | some nid =>
    match findNote db nid acct with
    | none => (false, db)
    | some note =>
      let note1 := applyFlags inp note
      let notes1 := db.notes.map (fun m => if m.id = nid ∧ m.accountId = acct then note1 else m)
      let dbA := { db with notes := notes1 }
      match inp.content with
      | none => (true, dbA)
      | some _ => upsertSync acct tree (inp.references.getD []) inp.attachments nid dbA
  | none =>
    let note : Note :=
      ⟨db.nextNoteId, acct, inp.content.getD [], inp.ntype,
        false, inp.isTop.getD false, inp.isShare.getD false, false⟩
    let dbA := { db with notes := db.notes ++ [note], nextNoteId := db.nextNoteId + 1 }
    let har := handleAddTags acct (some note.id) tree none dbA []
    let dbB := addAttRows note.id inp.attachments har.1
    let dbC :=
      match inp.references with
      | some rs =>
        if rs ≠ [] then { dbB with noteRefs := dbB.noteRefs ++ rs.map (fun t => (note.id, t)) }
        else dbB
      | none => dbB
    (true, dbC)

/-! ## note.deleteMany and insertNoteReference -/

/-- One iteration of the deleteMany relation-cleanup loop for one note, with
snap the snapshot state whose joined tags and attachments were fetched before
the loop: delete the note's associations, delete its reference edges in both
directions, delete the now-orphaned snapshot tags (account-scoped), and
delete the snapshot attachment rows. usingTags joins the current tag rows and
filters falsy ids, as .map(i => i.tag?.id).filter(i => !!i) does. -/
def deleteNoteStep (acct : Nat) (snap : DB) (n : Note) (db : DB) : DB :=
  let db1 := { db with tagsToNote := db.tagsToNote.filter (fun r => decide (¬ r.2 = n.id)) }
  let db2 := { db1 with
    noteRefs := db1.noteRefs.filter (fun r => decide (¬ (r.1 = n.id ∨ r.2 = n.id))) }
  let allTagIds : List Nat := (joinedTags snap n.id).map Tag.id
  let usingT : List Nat := (((db2.tagsToNote.filter
      (fun r => decide (r.1 ∈ allTagIds))).filterMap
      (fun r => db2.tags.find? (fun t => decide (t.id = r.1)))).map Tag.id).filter
      (fun i => decide (i ≠ 0))
  let delT := allTagIds.filter (fun i => decide (i ∉ usingT))
  let db3 := { db2 with
    tags := db2.tags.filter (fun t => decide (¬ (t.id ∈ delT ∧ t.accountId = acct))) }
  let snapAttIds := (snap.attachments.filter (fun a => decide (a.noteId = n.id))).map
    Attachment.id
  { db3 with attachments := db3.attachments.filter (fun a => decide (a.id ∉ snapAttIds)) }

/-- The loop of deleteMany over the fetched notes. -/
def deleteLoop (acct : Nat) (snap : DB) : List Note → DB → DB
  | [], db => db
  | n :: rest, db => deleteLoop acct snap rest (deleteNoteStep acct snap n db)

/-- note.deleteMany: fetch the account's notes among ids with their relations
(the snapshot), run the cleanup loop, then delete the note rows. Webhook and
file deletion are external side effects and not modelled. -/
def deleteManyModel (acct : Nat) (ids : List Nat) (db : DB) : DB :=
  let victims := db.notes.filter (fun n => decide (n.id ∈ ids ∧ n.accountId = acct))
  let db1 := deleteLoop acct db victims db
  { db1 with notes := db1.notes.filter (fun n => decide (¬ (n.id ∈ ids ∧ n.accountId = acct))) }

/-- insertNoteReference: look both endpoints up by (id, accountId); throw
'Note not found' and write nothing when either is missing, otherwise create
the edge. -/
def insertNoteReference (fromNoteId toNoteId acct : Nat) (db : DB) : Bool × DB :=
  match findNote db fromNoteId acct, findNote db toNoteId acct with
  | some _, some _ => (true, { db with noteRefs := db.noteRefs ++ [(fromNoteId, toNoteId)] })
  | _, _ => (false, db)

/-! ## Follows router -/

/-- A follows row. -/
structure FollowRow where
  id : Nat
  followType : List Char
  siteUrl : List Char
  siteName : List Char
  siteAvatar : List Char
  accountId : Nat
deriving DecidableEq, Repr

/-- The follows table with its autoincrement counter. -/
structure FollowsDB where
  rows : List FollowRow
  nextId : Nat
deriving DecidableEq, Repr

/-- The relation type literal 'following'. -/
def followingT : List Char := ['f', 'o', 'l', 'l', 'o', 'w', 'i', 'n', 'g']

/-- The relation type literal 'follower'. -/
def followerT : List Char := ['f', 'o', 'l', 'l', 'o', 'w', 'e', 'r']

/-- The payload of GET /api/v1/public/site-info. -/
structure SiteInfo where
  sid : Nat
  name : List Char
  image : List Char
deriving DecidableEq, Repr

/-- The distinguishable failure modes of follows.follow. -/
inductive FollowErr where
  | httpGet
  | conflict
  | httpPost
deriving DecidableEq, Repr

instance : DecidableEq (Except FollowErr FollowRow) := fun a b =>
  match a, b with
  | Except.ok x, Except.ok y =>
    if h : x = y then Decidable.isTrue (by rw [h])
    else Decidable.isFalse (by intro hc; cases hc; exact h rfl)
  | Except.error x, Except.error y =>
    if h : x = y then Decidable.isTrue (by rw [h])
    else Decidable.isFalse (by intro hc; cases hc; exact h rfl)
  | Except.ok x, Except.error y => Decidable.isFalse (fun hc => Except.noConfusion hc)
  | Except.error x, Except.ok y => Decidable.isFalse (fun hc => Except.noConfusion hc)

/-- follows.follow. norm models new URL(u).origin; siteInfo? none models an
unreachable remote, whose GET throws before the duplicate check; postOk false
models a failing outbound follow-from POST after the local create. The body
runs inside prisma.$transaction, so a throw anywhere in it rolls the local
writes back: every error branch returns the input state. -/
def followModel (norm : List Char → List Char) (acct : Nat)
    (siteUrl mySiteUrl : List Char) (siteInfo? : Option SiteInfo) (postOk : Bool)
    (db : FollowsDB) : Except FollowErr FollowRow × FollowsDB :=
  let u := norm siteUrl
  let _ := norm mySiteUrl
  match siteInfo? with
  | none => (Except.error FollowErr.httpGet, db)
  | some si =>
    match db.rows.find? (fun r =>
        decide (r.siteUrl = u ∧ r.accountId = acct ∧ r.followType = followingT)) with
    | some _ => (Except.error FollowErr.conflict, db)
    | none =>
      let row : FollowRow :=
        ⟨db.nextId, followingT, u, si.name,
          if si.image ≠ [] then u ++ si.image else [], acct⟩
      if postOk then (Except.ok row, ⟨db.rows ++ [row], db.nextId + 1⟩)
      else (Except.error FollowErr.httpPost, db)

/-- follows.followFrom: normalize the url, return an existing matching
'follower' row unchanged, otherwise create one. -/
def followFromModel (norm : List Char → List Char) (mySiteAccountId : Nat)
    (siteUrl siteName siteAvatar : List Char) (db : FollowsDB) :
    FollowRow × FollowsDB :=
  let u := norm siteUrl
  match db.rows.find? (fun r =>
      decide (r.siteUrl = u ∧ r.followType = followerT ∧ r.accountId = mySiteAccountId)) with
  | some r => (r, db)
  | none =>
    let row : FollowRow := ⟨db.nextId, followerT, u, siteName, siteAvatar, mySiteAccountId⟩
    (row, ⟨db.rows ++ [row], db.nextId + 1⟩)

/-! ## Proof-side definitions -/

/-- Every node of the forest resolves by findTag in the given tag list and
its association with the note is present: on such states handleAddTags is a
pure no-op. -/
def satForest (acct nid : Nat) (tags : List Tag) (rels : List (Nat × Nat)) :
    Nat → List TagTreeNode → Bool
  | _, [] => true
  | pid, TagTreeNode.node name children :: rest =>
    match findTag tags name pid acct with
    | none => false
    | some t =>
      decide ((t.id, nid) ∈ rels) && satForest acct nid tags rels t.id children
        && satForest acct nid tags rels pid rest
  termination_by _ l => sizeOf l

/-- The newTags list of a saturated handleAddTags run: post-order resolution
of the forest against a fixed tag list. -/
def resolvedTags (acct : Nat) (tags : List Tag) : Nat → List TagTreeNode → List Tag
  | _, [] => []
  | pid, TagTreeNode.node name children :: rest =>
    match findTag tags name pid acct with
    | none => []
    | some t =>
      resolvedTags acct tags t.id children ++ [t] ++ resolvedTags acct tags pid rest
  termination_by _ l => sizeOf l

/-- Store invariants the reconciliation proofs assume: distinct positive tag
ids below the id counter, and at most one tag per (name, parent, accountId)
triple (the uniqueness the source maintains by lookup-before-create). -/
structure TagsWf (db : DB) : Prop where
  nodup : (db.tags.map Tag.id).Nodup
  pos : ∀ t ∈ db.tags, 1 ≤ t.id
  fresh : ∀ t ∈ db.tags, t.id < db.nextTagId
  posCounter : 1 ≤ db.nextTagId
  uniq : ∀ t1 ∈ db.tags, ∀ t2 ∈ db.tags,
    t1.name = t2.name → t1.parent = t2.parent → t1.accountId = t2.accountId → t1 = t2

/-- No tag name of the store contains the composite-key delimiter. -/
def dbDelimFree (db : DB) : Prop := ∀ t ∈ db.tags, hasDelim t.name = false

/-- No name of the forest contains the composite-key delimiter. -/
def treeDelimFree (tree : List TagTreeNode) : Prop :=
  ∀ n ∈ forestNames tree, hasDelim n = false

/-- Saturation of the update path for one note: the store invariants hold,
every tree node resolves to a stored tag whose association with the note is
present, the joined tags of the note are covered by the resolved tags, the
outgoing reference set equals the input references, and every input
attachment path is already attached. A second reconciliation run on such a
state is the identity. -/
structure SyncGood (acct nid : Nat) (tree : List TagTreeNode) (refs : List Nat)
    (atts : List (List Char × List Char × Nat)) (db : DB) : Prop where
  wf : TagsWf db
  df : dbDelimFree db
  sat : satForest acct nid db.tags db.tagsToNote 0 tree = true
  joined : ∀ t ∈ joinedTags db nid, t ∈ resolvedTags acct db.tags 0 tree
  refsEq : ∀ x, x ∈ outRefIds db nid ↔ x ∈ refs
  paths : ∀ a ∈ atts, a.2.1 ∈ ((db.attachments.filter
    (fun r => decide (r.noteId = nid))).map Attachment.path)

/-- The note-row update of upsert, `notes.update(where id, accountId)`,
as a map replacing the matching rows. -/
def replNotes (nid acct : Nat) (note1 : Note) (db : DB) : DB :=
  { db with notes := db.notes.map (fun m =>
      if m.id = nid ∧ m.accountId = acct then note1 else m) }

/-! ## Structural induction over tag forests -/

theorem forest_induction (motive : List TagTreeNode → Prop)
    (hnil : motive [])
    (hcons : ∀ name children rest, motive children → motive rest →
      motive (TagTreeNode.node name children :: rest)) :
    ∀ forest, motive forest := by
  have H : ∀ k forest, sizeOf forest ≤ k → motive forest := by
    intro k
    induction k with
    | zero =>
      intro forest h
      cases forest with
      | nil => exact hnil
      | cons hd tl => cases hd with | node n cs => simp at h
    | succ k ih =>
      intro forest h
      cases forest with
      | nil => exact hnil
      | cons hd tl =>
        cases hd with
        | node n cs =>
          simp at h
          exact hcons n cs tl (ih cs (by omega)) (ih tl (by omega))
  intro forest
  exact H (sizeOf forest) forest (Nat.le_refl _)

/-! ## Frame lemmas: which parts of the store each step leaves alone -/

@[simp] theorem findOrCreate_notes (acct : Nat) (name : List Char) (pid : Nat) (db : DB) :
    (findOrCreate acct name pid db).2.notes = db.notes := by
  unfold findOrCreate; split <;> rfl

@[simp] theorem findOrCreate_tagsToNote (acct : Nat) (name : List Char) (pid : Nat) (db : DB) :
    (findOrCreate acct name pid db).2.tagsToNote = db.tagsToNote := by
  unfold findOrCreate; split <;> rfl

@[simp] theorem findOrCreate_noteRefs (acct : Nat) (name : List Char) (pid : Nat) (db : DB) :
    (findOrCreate acct name pid db).2.noteRefs = db.noteRefs := by
  unfold findOrCreate; split <;> rfl

@[simp] theorem findOrCreate_attachments (acct : Nat) (name : List Char) (pid : Nat) (db : DB) :
    (findOrCreate acct name pid db).2.attachments = db.attachments := by
  unfold findOrCreate; split <;> rfl

@[simp] theorem findOrCreate_nextNoteId (acct : Nat) (name : List Char) (pid : Nat) (db : DB) :
    (findOrCreate acct name pid db).2.nextNoteId = db.nextNoteId := by
  unfold findOrCreate; split <;> rfl

@[simp] theorem findOrCreate_nextAttId (acct : Nat) (name : List Char) (pid : Nat) (db : DB) :
    (findOrCreate acct name pid db).2.nextAttId = db.nextAttId := by
  unfold findOrCreate; split <;> rfl

@[simp] theorem ensureRel_notes (noteId : Option Nat) (tid : Nat) (db : DB) :
    (ensureRel noteId tid db).notes = db.notes := by
  unfold ensureRel; split
  · split <;> rfl
  · rfl

@[simp] theorem ensureRel_tags (noteId : Option Nat) (tid : Nat) (db : DB) :
    (ensureRel noteId tid db).tags = db.tags := by
  unfold ensureRel; split
  · split <;> rfl
  · rfl

@[simp] theorem ensureRel_noteRefs (noteId : Option Nat) (tid : Nat) (db : DB) :
    (ensureRel noteId tid db).noteRefs = db.noteRefs := by
  unfold ensureRel; split
  · split <;> rfl
  · rfl

@[simp] theorem ensureRel_attachments (noteId : Option Nat) (tid : Nat) (db : DB) :
    (ensureRel noteId tid db).attachments = db.attachments := by
  unfold ensureRel; split
  · split <;> rfl
  · rfl

@[simp] theorem ensureRel_nextTagId (noteId : Option Nat) (tid : Nat) (db : DB) :
    (ensureRel noteId tid db).nextTagId = db.nextTagId := by
  unfold ensureRel; split
  · split <;> rfl
  · rfl

@[simp] theorem ensureRel_nextNoteId (noteId : Option Nat) (tid : Nat) (db : DB) :
    (ensureRel noteId tid db).nextNoteId = db.nextNoteId := by
  unfold ensureRel; split
  · split <;> rfl
  · rfl

@[simp] theorem ensureRel_nextAttId (noteId : Option Nat) (tid : Nat) (db : DB) :
    (ensureRel noteId tid db).nextAttId = db.nextAttId := by
  unfold ensureRel; split
  · split <;> rfl
  · rfl

theorem handleAddTags_notes (acct : Nat) (noteId : Option Nat) (forest : List TagTreeNode) :
    ∀ (parent : Option Tag) (db : DB) (acc : List Tag),
      (handleAddTags acct noteId forest parent db acc).1.notes = db.notes := by
  induction forest using forest_induction with
  | hnil => intro parent db acc; unfold handleAddTags; rfl
  | hcons name children rest ihc ihr =>
    intro parent db acc
    unfold handleAddTags
    dsimp only
    rw [ihr, ihc, ensureRel_notes, findOrCreate_notes]

theorem handleAddTags_noteRefs (acct : Nat) (noteId : Option Nat) (forest : List TagTreeNode) :
    ∀ (parent : Option Tag) (db : DB) (acc : List Tag),
      (handleAddTags acct noteId forest parent db acc).1.noteRefs = db.noteRefs := by
  induction forest using forest_induction with
  | hnil => intro parent db acc; unfold handleAddTags; rfl
  | hcons name children rest ihc ihr =>
    intro parent db acc
    unfold handleAddTags
    dsimp only
    rw [ihr, ihc, ensureRel_noteRefs, findOrCreate_noteRefs]

theorem handleAddTags_attachments (acct : Nat) (noteId : Option Nat) (forest : List TagTreeNode) :
    ∀ (parent : Option Tag) (db : DB) (acc : List Tag),
      (handleAddTags acct noteId forest parent db acc).1.attachments = db.attachments := by
  induction forest using forest_induction with
  | hnil => intro parent db acc; unfold handleAddTags; rfl
  | hcons name children rest ihc ihr =>
    intro parent db acc
    unfold handleAddTags
    dsimp only
    rw [ihr, ihc, ensureRel_attachments, findOrCreate_attachments]

theorem handleAddTags_nextNoteId (acct : Nat) (noteId : Option Nat) (forest : List TagTreeNode) :
    ∀ (parent : Option Tag) (db : DB) (acc : List Tag),
      (handleAddTags acct noteId forest parent db acc).1.nextNoteId = db.nextNoteId := by
  induction forest using forest_induction with
  | hnil => intro parent db acc; unfold handleAddTags; rfl
  | hcons name children rest ihc ihr =>
    intro parent db acc
    unfold handleAddTags
    dsimp only
    rw [ihr, ihc, ensureRel_nextNoteId, findOrCreate_nextNoteId]

theorem handleAddTags_nextAttId (acct : Nat) (noteId : Option Nat) (forest : List TagTreeNode) :
    ∀ (parent : Option Tag) (db : DB) (acc : List Tag),
      (handleAddTags acct noteId forest parent db acc).1.nextAttId = db.nextAttId := by
  induction forest using forest_induction with
  | hnil => intro parent db acc; unfold handleAddTags; rfl
  | hcons name children rest ihc ihr =>
    intro parent db acc
    unfold handleAddTags
    dsimp only
    rw [ihr, ihc, ensureRel_nextAttId, findOrCreate_nextAttId]

theorem addAttRows_frame (nid : Nat) (atts : List (List Char × List Char × Nat)) :
    ∀ db : DB,
      (addAttRows nid atts db).notes = db.notes ∧
      (addAttRows nid atts db).tags = db.tags ∧
      (addAttRows nid atts db).tagsToNote = db.tagsToNote ∧
      (addAttRows nid atts db).noteRefs = db.noteRefs ∧
      (addAttRows nid atts db).nextTagId = db.nextTagId ∧
      (addAttRows nid atts db).nextNoteId = db.nextNoteId := by
  induction atts with
  | nil => intro db; exact ⟨rfl, rfl, rfl, rfl, rfl, rfl⟩
  | cons a rest ih =>
    intro db
    unfold addAttRows
    exact ih _

@[simp] theorem addRelStep_notes (nid : Nat) (newTags : List Tag) (k : List Char) (db : DB) :
    (addRelStep nid newTags k db).notes = db.notes := by
  unfold addRelStep; split
  · split
    · rfl
    · split <;> rfl
  · rfl

@[simp] theorem addRelStep_tags (nid : Nat) (newTags : List Tag) (k : List Char) (db : DB) :
    (addRelStep nid newTags k db).tags = db.tags := by
  unfold addRelStep; split
  · split
    · rfl
    · split <;> rfl
  · rfl

@[simp] theorem addRelStep_noteRefs (nid : Nat) (newTags : List Tag) (k : List Char) (db : DB) :
    (addRelStep nid newTags k db).noteRefs = db.noteRefs := by
  unfold addRelStep; split
  · split
    · rfl
    · split <;> rfl
  · rfl

@[simp] theorem addRelStep_attachments (nid : Nat) (newTags : List Tag) (k : List Char)
    (db : DB) : (addRelStep nid newTags k db).attachments = db.attachments := by
  unfold addRelStep; split
  · split
    · rfl
    · split <;> rfl
  · rfl

@[simp] theorem addRelStep_nextTagId (nid : Nat) (newTags : List Tag) (k : List Char)
    (db : DB) : (addRelStep nid newTags k db).nextTagId = db.nextTagId := by
  unfold addRelStep; split
  · split
    · rfl
    · split <;> rfl
  · rfl

theorem addRelLoop_frame (nid : Nat) (newTags : List Tag) (ks : List (List Char)) :
    ∀ db : DB,
      (addRelLoop nid newTags ks db).notes = db.notes ∧
      (addRelLoop nid newTags ks db).tags = db.tags ∧
      (addRelLoop nid newTags ks db).noteRefs = db.noteRefs ∧
      (addRelLoop nid newTags ks db).attachments = db.attachments ∧
      (addRelLoop nid newTags ks db).nextTagId = db.nextTagId := by
  induction ks with
  | nil => intro db; exact ⟨rfl, rfl, rfl, rfl, rfl⟩
  | cons k rest ih =>
    intro db
    unfold addRelLoop
    obtain ⟨h1, h2, h3, h4, h5⟩ := ih (addRelStep nid newTags k db)
    simp [h1, h2, h3, h4, h5]

@[simp] theorem addAttRows_notes (nid : Nat) (atts : List (List Char × List Char × Nat))
    (db : DB) : (addAttRows nid atts db).notes = db.notes := (addAttRows_frame nid atts db).1

@[simp] theorem addAttRows_tags (nid : Nat) (atts : List (List Char × List Char × Nat))
    (db : DB) : (addAttRows nid atts db).tags = db.tags := (addAttRows_frame nid atts db).2.1

@[simp] theorem addAttRows_tagsToNote (nid : Nat) (atts : List (List Char × List Char × Nat))
    (db : DB) : (addAttRows nid atts db).tagsToNote = db.tagsToNote :=
  (addAttRows_frame nid atts db).2.2.1

@[simp] theorem addAttRows_noteRefs (nid : Nat) (atts : List (List Char × List Char × Nat))
    (db : DB) : (addAttRows nid atts db).noteRefs = db.noteRefs :=
  (addAttRows_frame nid atts db).2.2.2.1

@[simp] theorem addAttRows_nextTagId (nid : Nat) (atts : List (List Char × List Char × Nat))
    (db : DB) : (addAttRows nid atts db).nextTagId = db.nextTagId :=
  (addAttRows_frame nid atts db).2.2.2.2.1

@[simp] theorem addAttRows_nextNoteId (nid : Nat) (atts : List (List Char × List Char × Nat))
    (db : DB) : (addAttRows nid atts db).nextNoteId = db.nextNoteId :=
  (addAttRows_frame nid atts db).2.2.2.2.2

@[simp] theorem addRelLoop_notes (nid : Nat) (nt : List Tag) (ks : List (List Char))
    (db : DB) : (addRelLoop nid nt ks db).notes = db.notes := (addRelLoop_frame nid nt ks db).1

@[simp] theorem addRelLoop_tags (nid : Nat) (nt : List Tag) (ks : List (List Char))
    (db : DB) : (addRelLoop nid nt ks db).tags = db.tags := (addRelLoop_frame nid nt ks db).2.1

@[simp] theorem addRelLoop_noteRefs (nid : Nat) (nt : List Tag) (ks : List (List Char))
    (db : DB) : (addRelLoop nid nt ks db).noteRefs = db.noteRefs :=
  (addRelLoop_frame nid nt ks db).2.2.1

@[simp] theorem addRelLoop_attachments (nid : Nat) (nt : List Tag) (ks : List (List Char))
    (db : DB) : (addRelLoop nid nt ks db).attachments = db.attachments :=
  (addRelLoop_frame nid nt ks db).2.2.2.1

@[simp] theorem addRelLoop_nextTagId (nid : Nat) (nt : List Tag) (ks : List (List Char))
    (db : DB) : (addRelLoop nid nt ks db).nextTagId = db.nextTagId :=
  (addRelLoop_frame nid nt ks db).2.2.2.2

/-! ## Claim C5: follow with an existing following row -/

/-- Claim C5 counterexample: a 'following' row exists for the caller's
account and the site url, yet with the remote unreachable the call fails
with the HTTP fetch error rather than with Conflict — the site-info GET runs
before the duplicate check. -/
theorem C5_counterexample :
    (∃ r ∈ (FollowsDB.mk [⟨7, followingT, ['s'], [], [], 1⟩] 8).rows,
        r.siteUrl = ['s'] ∧ r.accountId = 1 ∧ r.followType = followingT) ∧
    (followModel (fun s => s) 1 ['s'] ['m'] none true
        (FollowsDB.mk [⟨7, followingT, ['s'], [], [], 1⟩] 8)).1 =
      Except.error FollowErr.httpGet ∧
    (Except.error FollowErr.httpGet : Except FollowErr FollowRow) ≠
      Except.error FollowErr.conflict := by
  decide

/-- Claim C5 (amended): when a 'following' row already exists for the
caller's (accountId, siteUrl origin) and the remote site-info fetch
succeeds, follow fails with Conflict and leaves the store unchanged,
whether or not the later notification would succeed. -/
theorem C5_amended (norm : List Char → List Char) (acct : Nat)
    (siteUrl mySiteUrl : List Char) (si : SiteInfo) (postOk : Bool) (db : FollowsDB)
    (hex : ∃ r ∈ db.rows,
      r.siteUrl = norm siteUrl ∧ r.accountId = acct ∧ r.followType = followingT) :
    followModel norm acct siteUrl mySiteUrl (some si) postOk db =
      (Except.error FollowErr.conflict, db) := by
  unfold followModel
  dsimp only
  split
  · rfl
  · rename_i hnone
    rw [List.find?_eq_none] at hnone
    obtain ⟨r, hr, h1, h2, h3⟩ := hex
    exact absurd (by simp [h1, h2, h3]) (hnone r hr)

/-- Claim C5 witness: the amended statement at a concrete store with an
existing following row and a reachable remote. -/
theorem C5_witness :
    followModel (fun s => s) 1 ['s'] ['m'] (some ⟨2, ['n'], []⟩) true
        ⟨[⟨7, followingT, ['s'], [], [], 1⟩], 8⟩ =
      (Except.error FollowErr.conflict, ⟨[⟨7, followingT, ['s'], [], [], 1⟩], 8⟩) :=
  C5_amended (fun s => s) 1 ['s'] ['m'] ⟨2, ['n'], []⟩ true
    ⟨[⟨7, followingT, ['s'], [], [], 1⟩], 8⟩ (by decide)

/-! ## Claim C6: failing follow notification and the local row -/

/-- Claim C6 counterexample: the outbound notification fails after the local
'following' row was created, the error propagates — but the local row does
not survive: the handler body runs inside the transaction, so the write is
rolled back and the post-state store is unchanged (here: still empty). -/
theorem C6_counterexample :
    (followModel (fun s => s) 1 ['s'] ['m'] (some ⟨2, ['n'], []⟩) false ⟨[], 5⟩).1 =
      Except.error FollowErr.httpPost ∧
    (followModel (fun s => s) 1 ['s'] ['m'] (some ⟨2, ['n'], []⟩) false ⟨[], 5⟩).2 =
      ⟨[], 5⟩ := by
  decide

/-- Claim C6 (amended): when the outbound notification fails after the local
create, the error propagates to the caller and the local 'following' row
does not persist — the transaction wrapping the handler rolls it back. -/
theorem C6_amended (norm : List Char → List Char) (acct : Nat)
    (siteUrl mySiteUrl : List Char) (si : SiteInfo) (db : FollowsDB)
    (hnone : ∀ r ∈ db.rows,
      ¬ (r.siteUrl = norm siteUrl ∧ r.accountId = acct ∧ r.followType = followingT)) :
    followModel norm acct siteUrl mySiteUrl (some si) false db =
      (Except.error FollowErr.httpPost, db) := by
  unfold followModel
  dsimp only
  split
  · rename_i r hr
    have := List.find?_some hr
    simp at this
    exact absurd this (hnone r (List.mem_of_find?_eq_some hr))
  · rfl

/-- Claim C6 witness: the amended statement at a concrete empty store. -/
theorem C6_witness :
    (∀ r ∈ (FollowsDB.mk [] 5).rows,
      ¬ (r.siteUrl = ['s'] ∧ r.accountId = 1 ∧ r.followType = followingT)) ∧
    followModel (fun s => s) 1 ['s'] ['m'] (some ⟨2, ['n'], []⟩) false ⟨[], 5⟩ =
      (Except.error FollowErr.httpPost, ⟨[], 5⟩) :=
  ⟨by decide, C6_amended (fun s => s) 1 ['s'] ['m'] ⟨2, ['n'], []⟩ ⟨[], 5⟩ (by decide)⟩

/-! ## Claim C7: followFrom idempotence -/

/-- Claim C7: followFrom is idempotent. With a matching 'follower' row
already present for (siteUrl origin, mySiteAccountId), the call returns that
row unchanged and writes nothing; starting from a store with no matching
row, a second identical call returns the row the first call created, changes
nothing, and the store holds exactly one matching row. -/
theorem C7_followFrom_idempotent (norm : List Char → List Char) (aid : Nat)
    (su sn sa : List Char) (db : FollowsDB) :
    (∀ r0, db.rows.find? (fun r =>
        decide (r.siteUrl = norm su ∧ r.followType = followerT ∧ r.accountId = aid)) = some r0 →
      followFromModel norm aid su sn sa db = (r0, db)) ∧
    ((∀ r ∈ db.rows,
        ¬ (r.siteUrl = norm su ∧ r.followType = followerT ∧ r.accountId = aid)) →
      followFromModel norm aid su sn sa (followFromModel norm aid su sn sa db).2 =
        ((followFromModel norm aid su sn sa db).1,
          (followFromModel norm aid su sn sa db).2) ∧
      (followFromModel norm aid su sn sa db).2.rows.filter (fun r =>
          decide (r.siteUrl = norm su ∧ r.followType = followerT ∧ r.accountId = aid)) =
        [(followFromModel norm aid su sn sa db).1]) := by
  constructor
  · intro r0 hr0
    unfold followFromModel
    dsimp only
    rw [hr0]
  · intro hnone
    have hfn : db.rows.find? (fun r =>
        decide (r.siteUrl = norm su ∧ r.followType = followerT ∧ r.accountId = aid)) = none := by
      rw [List.find?_eq_none]
      intro r hr
      simpa using hnone r hr
    have h1 : followFromModel norm aid su sn sa db =
        (⟨db.nextId, followerT, norm su, sn, sa, aid⟩,
         ⟨db.rows ++ [⟨db.nextId, followerT, norm su, sn, sa, aid⟩], db.nextId + 1⟩) := by
      unfold followFromModel
      dsimp only
      rw [hfn]
    rw [h1]
    constructor
    · unfold followFromModel
      dsimp only
      rw [List.find?_append, hfn]
      simp
    · rw [List.filter_append]
      have hempty : db.rows.filter (fun r => decide (r.siteUrl = norm su ∧
          r.followType = followerT ∧ r.accountId = aid)) = [] := by
        rw [List.filter_eq_nil_iff]
        intro r hr
        simpa using hnone r hr
      rw [hempty]
      simp

/-- Claim C7 witness: both idempotence conclusions at a concrete empty
store. -/
theorem C7_witness :
    followFromModel (fun s => s) 1 ['s'] ['n'] ['a']
        (followFromModel (fun s => s) 1 ['s'] ['n'] ['a'] ⟨[], 1⟩).2 =
      ((followFromModel (fun s => s) 1 ['s'] ['n'] ['a'] ⟨[], 1⟩).1,
        (followFromModel (fun s => s) 1 ['s'] ['n'] ['a'] ⟨[], 1⟩).2) ∧
    (followFromModel (fun s => s) 1 ['s'] ['n'] ['a'] ⟨[], 1⟩).2.rows.filter (fun r =>
        decide (r.siteUrl = ['s'] ∧ r.followType = followerT ∧ r.accountId = 1)) =
      [(followFromModel (fun s => s) 1 ['s'] ['n'] ['a'] ⟨[], 1⟩).1] :=
  (C7_followFrom_idempotent (fun s => s) 1 ['s'] ['n'] ['a'] ⟨[], 1⟩).2 (by decide)

/-! ## Claim C8: reference-edge creation and endpoint validation -/

/-- Claim C8 counterexample: the upsert path creates a reference edge from
the input references without endpoint validation — here an edge to note 4,
which belongs to account 2, is created by account 1's upsert, violating the
claim that an edge is created only when both endpoints belong to the
requesting account. -/
theorem C8_counterexample :
    (upsertModel 1 []
        ⟨some ['x'], 0, [], some 1, none, none, none, none, some [4]⟩
        ⟨[⟨1, 1, [], 0, false, false, false, false⟩, ⟨4, 2, [], 0, false, false, false, false⟩],
          [], [], [], [], 1, 100, 1⟩).2.noteRefs = [(1, 4)] ∧
    findNote ⟨[⟨1, 1, [], 0, false, false, false, false⟩,
      ⟨4, 2, [], 0, false, false, false, false⟩], [], [], [], [], 1, 100, 1⟩ 4 1 = none := by
  constructor
  · simp [upsertModel, findNote, applyFlags, upsertSync, joinedTags, handleAddTags, outRefIds,
      delRelIds, addRelLoop, attachPhase, addAttRows]
  · decide

/-- Claim C8 (amended): addReference itself (insertNoteReference) creates
the edge exactly when both endpoints are found for (id, requesting account),
and fails with the generic error creating nothing when either lookup fails;
the upsert path performs no such validation. -/
theorem C8_amended (f t acct : Nat) (db : DB) :
    ((findNote db f acct).isSome = true → (findNote db t acct).isSome = true →
      insertNoteReference f t acct db =
        (true, { db with noteRefs := db.noteRefs ++ [(f, t)] })) ∧
    ((findNote db f acct = none ∨ findNote db t acct = none) →
      insertNoteReference f t acct db = (false, db)) := by
  constructor
  · intro h1 h2
    unfold insertNoteReference
    rcases hf : findNote db f acct with _ | nf
    · rw [hf] at h1; simp at h1
    rcases ht : findNote db t acct with _ | nt
    · rw [ht] at h2; simp at h2
    rfl
  · intro h
    unfold insertNoteReference
    rcases hf : findNote db f acct with _ | nf <;>
      rcases ht : findNote db t acct with _ | nt
    · rfl
    · rfl
    · rfl
    · exfalso
      rcases h with h | h
      · rw [hf] at h; exact Option.noConfusion h
      · rw [ht] at h; exact Option.noConfusion h

/-- Claim C8 witness: a successful insert between two owned notes, and a
rejected insert towards a missing note. -/
theorem C8_witness :
    insertNoteReference 1 2 1
        ⟨[⟨1, 1, [], 0, false, false, false, false⟩, ⟨2, 1, [], 0, false, false, false, false⟩],
          [], [], [], [], 1, 100, 1⟩ =
      (true, ⟨[⟨1, 1, [], 0, false, false, false, false⟩,
        ⟨2, 1, [], 0, false, false, false, false⟩], [], [], [(1, 2)], [], 1, 100, 1⟩) ∧
    insertNoteReference 1 4 1
        ⟨[⟨1, 1, [], 0, false, false, false, false⟩], [], [], [], [], 1, 100, 1⟩ =
      (false, ⟨[⟨1, 1, [], 0, false, false, false, false⟩], [], [], [], [], 1, 100, 1⟩) :=
  ⟨(C8_amended 1 2 1 _).1 (by decide) (by decide),
   (C8_amended 1 4 1 _).2 (Or.inr (by decide))⟩

/-! ## Claim C9: update with null content touches only the note row -/

/-- Claim C9: an upsert with an id and null content updates only the note
row through the conditional flag object and returns; tag associations,
reference edges, attachment rows and tag rows are untouched, whatever
references or attachments the input carries. -/
theorem C9_nullContent_frame (acct : Nat) (tree : List TagTreeNode) (inp : UpsertInput)
    (db : DB) (nid : Nat) (note : Note)
    (hid : inp.id = some nid) (hc : inp.content = none)
    (hfind : findNote db nid acct = some note) :
    (upsertModel acct tree inp db).1 = true ∧
    (upsertModel acct tree inp db).2.tagsToNote = db.tagsToNote ∧
    (upsertModel acct tree inp db).2.noteRefs = db.noteRefs ∧
    (upsertModel acct tree inp db).2.attachments = db.attachments ∧
    (upsertModel acct tree inp db).2.tags = db.tags ∧
    (upsertModel acct tree inp db).2.notes =
      db.notes.map (fun m => if m.id = nid ∧ m.accountId = acct then applyFlags inp note else m) := by
  unfold upsertModel
  rw [hid]
  dsimp only
  rw [hfind]
  dsimp only
  rw [hc]
  exact ⟨rfl, rfl, rfl, rfl, rfl, rfl⟩

/-- Claim C9 witness: a null-content flag update at a concrete store, with
non-empty references and attachments in the input, leaves associations,
edges and attachments untouched. -/
theorem C9_witness :
    (upsertModel 1 []
        ⟨none, 0, [(['n'], ['p'], 3)], some 1, some true, none, none, none, some [9]⟩
        ⟨[⟨1, 1, ['c'], 0, false, false, false, false⟩], [⟨1, ['t'], 0, 1⟩], [(1, 1)],
          [(1, 2)], [⟨1, 1, ['a'], ['q'], 2⟩], 2, 100, 2⟩).1 = true ∧
    (upsertModel 1 []
        ⟨none, 0, [(['n'], ['p'], 3)], some 1, some true, none, none, none, some [9]⟩
        ⟨[⟨1, 1, ['c'], 0, false, false, false, false⟩], [⟨1, ['t'], 0, 1⟩], [(1, 1)],
          [(1, 2)], [⟨1, 1, ['a'], ['q'], 2⟩], 2, 100, 2⟩).2.tagsToNote = [(1, 1)] ∧
    (upsertModel 1 []
        ⟨none, 0, [(['n'], ['p'], 3)], some 1, some true, none, none, none, some [9]⟩
        ⟨[⟨1, 1, ['c'], 0, false, false, false, false⟩], [⟨1, ['t'], 0, 1⟩], [(1, 1)],
          [(1, 2)], [⟨1, 1, ['a'], ['q'], 2⟩], 2, 100, 2⟩).2.noteRefs = [(1, 2)] ∧
    (upsertModel 1 []
        ⟨none, 0, [(['n'], ['p'], 3)], some 1, some true, none, none, none, some [9]⟩
        ⟨[⟨1, 1, ['c'], 0, false, false, false, false⟩], [⟨1, ['t'], 0, 1⟩], [(1, 1)],
          [(1, 2)], [⟨1, 1, ['a'], ['q'], 2⟩], 2, 100, 2⟩).2.attachments =
      [⟨1, 1, ['a'], ['q'], 2⟩] ∧
    (upsertModel 1 []
        ⟨none, 0, [(['n'], ['p'], 3)], some 1, some true, none, none, none, some [9]⟩
        ⟨[⟨1, 1, ['c'], 0, false, false, false, false⟩], [⟨1, ['t'], 0, 1⟩], [(1, 1)],
          [(1, 2)], [⟨1, 1, ['a'], ['q'], 2⟩], 2, 100, 2⟩).2.tags = [⟨1, ['t'], 0, 1⟩] := by
  have h := C9_nullContent_frame 1 []
    ⟨none, 0, [(['n'], ['p'], 3)], some 1, some true, none, none, none, some [9]⟩
    ⟨[⟨1, 1, ['c'], 0, false, false, false, false⟩], [⟨1, ['t'], 0, 1⟩], [(1, 1)],
      [(1, 2)], [⟨1, 1, ['a'], ['q'], 2⟩], 2, 100, 2⟩ 1
    ⟨1, 1, ['c'], 0, false, false, false, false⟩ (by decide) (by decide) (by decide)
  exact ⟨h.1, h.2.1, h.2.2.1, h.2.2.2.1, h.2.2.2.2.1⟩

/-! ## Claim C10: create-path defaults -/

/-- Claim C10: an upsert without id creates a note that is never archived
and never recycled, whatever the isArchived and isRecycle inputs say, and
stores null isShare or isTop as false. -/
theorem C10_create_defaults (acct : Nat) (tree : List TagTreeNode) (inp : UpsertInput)
    (db : DB) (hid : inp.id = none) :
    ∃ n : Note,
      (upsertModel acct tree inp db).1 = true ∧
      (upsertModel acct tree inp db).2.notes = db.notes ++ [n] ∧
      n.isArchived = false ∧ n.isRecycle = false ∧
      n.isShare = inp.isShare.getD false ∧ n.isTop = inp.isTop.getD false := by
  unfold upsertModel
  rw [hid]
  dsimp only
  refine ⟨⟨db.nextNoteId, acct, inp.content.getD [], inp.ntype, false,
    inp.isTop.getD false, inp.isShare.getD false, false⟩, rfl, ?_, rfl, rfl, rfl, rfl⟩
  have h1 := handleAddTags_notes acct (some db.nextNoteId) tree none
    { db with notes := db.notes ++ [⟨db.nextNoteId, acct, inp.content.getD [], inp.ntype, false,
      inp.isTop.getD false, inp.isShare.getD false, false⟩], nextNoteId := db.nextNoteId + 1 } []
  split
  · rename_i rs hrs
    split
    · dsimp only
      rw [addAttRows_notes, h1]
    · rw [addAttRows_notes, h1]
  · rw [addAttRows_notes, h1]

/-- Claim C10 witness: a create call demanding isArchived and isRecycle true
still yields a note with both false, and null isShare stored false, isTop
true stored true. -/
theorem C10_witness :
    ∃ n : Note,
      (upsertModel 1 [] ⟨some ['x'], 0, [], none, some true, some true, none, some true, none⟩
        ⟨[], [], [], [], [], 1, 50, 1⟩).1 = true ∧
      (upsertModel 1 [] ⟨some ['x'], 0, [], none, some true, some true, none, some true, none⟩
        ⟨[], [], [], [], [], 1, 50, 1⟩).2.notes = [] ++ [n] ∧
      n.isArchived = false ∧ n.isRecycle = false ∧
      n.isShare = (Option.getD none false) ∧ n.isTop = (Option.getD (some true) false) :=
  C10_create_defaults 1 [] ⟨some ['x'], 0, [], none, some true, some true, none, some true, none⟩
    ⟨[], [], [], [], [], 1, 50, 1⟩ (by rfl)

/-! ## Claim C1: hashtag extraction -/

theorem scanTags_spec (n : Nat) :
    ∀ (l : List Char), l.length ≤ n → ∀ (pre t : List Char), t ∈ scanTags pre l →
    ∃ u v, pre.reverse ++ l = u ++ t ++ v ∧
      (u = [] ∨ ∃ c, u.getLast? = some c ∧ jsWs c = true) ∧
      urlBefore u.reverse = false ∧
      (v = [] ∨ ∃ c, v.head? = some c ∧ jsWs c = true) ∧
      (∃ r, t = '#' :: r ∧ r ≠ [] ∧ ∀ c ∈ r, jsWs c = false ∧ c ≠ '#') := by
  induction n with
  | zero =>
    intro l hl pre t ht
    have hl2 : l = [] := by
      cases l with
      | nil => rfl
      | cons c rest => simp at hl
    subst hl2
    unfold scanTags at ht
    simp at ht
  | succ n ih =>
    intro l hl pre t ht
    match l with
    | [] =>
      unfold scanTags at ht
      simp at ht
    | c :: rest =>
      unfold scanTags at ht
      by_cases hcond : c = '#' ∧ boundaryOk pre = true ∧ urlBefore pre = false
      · rw [if_pos hcond] at ht
        dsimp only at ht
        by_cases hcond2 : rest.takeWhile tagChar ≠ [] ∧ wsOrEnd (rest.dropWhile tagChar) = true
        · rw [if_pos hcond2] at ht
          rcases List.mem_cons.mp ht with heq | hrec
          · subst heq
            refine ⟨pre.reverse, rest.dropWhile tagChar, ?_, ?_, ?_, ?_, ?_⟩
            · rw [hcond.1]
              have harr : rest.takeWhile tagChar ++ rest.dropWhile tagChar = rest :=
                List.takeWhile_append_dropWhile tagChar rest
              calc pre.reverse ++ '#' :: rest
                  = pre.reverse ++ '#' :: (rest.takeWhile tagChar ++ rest.dropWhile tagChar) := by
                    rw [harr]
                _ = pre.reverse ++ ('#' :: rest.takeWhile tagChar) ++ rest.dropWhile tagChar := by
                    simp
            · cases pre with
              | nil => left; rfl
              | cons p ps =>
                right
                refine ⟨p, ?_, ?_⟩
                · rw [List.getLast?_reverse]
                  rfl
                · have hb := hcond.2.1
                  unfold boundaryOk at hb
                  exact hb
            · rw [List.reverse_reverse]
              exact hcond.2.2
            · rcases hde : rest.dropWhile tagChar with _ | ⟨d, ds⟩
              · left; rfl
              · right
                refine ⟨d, rfl, ?_⟩
                have hw := hcond2.2
                rw [hde] at hw
                unfold wsOrEnd at hw
                exact hw
            · refine ⟨rest.takeWhile tagChar, rfl, hcond2.1, ?_⟩
              intro ch hch
              have htc := List.mem_takeWhile_imp hch
              unfold tagChar at htc
              simpa using htc
          · have hlen : (rest.dropWhile tagChar).length ≤ n := by
              have h0 : List.Sublist (List.dropWhile tagChar rest) rest :=
                List.dropWhile_sublist tagChar
              have h1 := h0.length_le
              simp at hl
              omega
            obtain ⟨u, v, he, hu, hurl, hv, hshape⟩ := ih _ hlen _ _ hrec
            refine ⟨u, v, ?_, hu, hurl, hv, hshape⟩
            rw [← he]
            rw [hcond.1]
            have harr : rest.takeWhile tagChar ++ rest.dropWhile tagChar = rest :=
              List.takeWhile_append_dropWhile tagChar rest
            calc pre.reverse ++ '#' :: rest
                = pre.reverse ++ '#' :: (rest.takeWhile tagChar ++ rest.dropWhile tagChar) := by
                  rw [harr]
              _ = ((rest.takeWhile tagChar).reverse ++ '#' :: pre).reverse ++
                    rest.dropWhile tagChar := by
                  simp
        · rw [if_neg hcond2] at ht
          have hlen : rest.length ≤ n := by simp at hl; omega
          obtain ⟨u, v, he, hu, hurl, hv, hshape⟩ := ih _ hlen _ _ ht
          refine ⟨u, v, ?_, hu, hurl, hv, hshape⟩
          rw [← he]
          simp
      · rw [if_neg hcond] at ht
        have hlen : rest.length ≤ n := by simp at hl; omega
        obtain ⟨u, v, he, hu, hurl, hv, hshape⟩ := ih _ hlen _ _ ht
        refine ⟨u, v, ?_, hu, hurl, hv, hshape⟩
        rw [← he]
        simp

theorem startsFence_false_of_head (c : Char) (l : List Char) (hc : c ≠ btick) :
    startsFence (c :: l) = false := by
  unfold startsFence
  match l with
  | [] => rfl
  | [x] => rfl
  | x :: y :: rest => simp [hc]

theorem rcb_cons_no_tick (c : Char) (l : List Char) (hc : c ≠ btick) :
    removeCodeBlocks (c :: l) = c :: removeCodeBlocks l := by
  rw [removeCodeBlocks.eq_2, startsFence_false_of_head c l hc]
  simp

theorem rcb_append_no_tick (a : List Char) (l : List Char) (ha : ∀ x ∈ a, x ≠ btick) :
    removeCodeBlocks (a ++ l) = a ++ removeCodeBlocks l := by
  induction a with
  | nil => simp
  | cons c a2 ih =>
    rw [List.cons_append, rcb_cons_no_tick c (a2 ++ l) (ha c (List.mem_cons_self c a2)),
      ih (fun x hx => ha x (List.mem_cons_of_mem c hx)), List.cons_append]

theorem findCloseIdx_at_fence (c : List Char) :
    findCloseIdx (fence ++ c) = some 3 := by
  rw [show fence ++ c = btick :: btick :: btick :: c from rfl, findCloseIdx.eq_2]
  rw [show startsFence (btick :: btick :: btick :: c) = true by unfold startsFence; simp]
  simp

theorem findCloseIdx_no_tick (b c : List Char) (hb : ∀ x ∈ b, x ≠ btick) :
    findCloseIdx (b ++ (fence ++ c)) = some (b.length + 3) := by
  induction b with
  | nil => simpa using findCloseIdx_at_fence c
  | cons x b2 ih =>
    rw [List.cons_append, findCloseIdx.eq_2,
      startsFence_false_of_head x (b2 ++ (fence ++ c)) (hb x (List.mem_cons_self x b2)),
      ih (fun y hy => hb y (List.mem_cons_of_mem x hy))]
    simp

theorem rcb_block (b c : List Char) (hb : ∀ x ∈ b, x ≠ btick) :
    removeCodeBlocks (fence ++ (b ++ (fence ++ c))) = removeCodeBlocks c := by
  rw [show fence ++ (b ++ (fence ++ c)) = btick :: btick :: btick :: (b ++ (fence ++ c))
    from rfl]
  rw [removeCodeBlocks.eq_2]
  rw [show startsFence (btick :: btick :: btick :: (b ++ (fence ++ c))) = true by
    unfold startsFence; simp]
  simp only [List.drop_succ_cons, List.drop_zero, if_true]
  rw [findCloseIdx_no_tick b c hb]
  have hdrop : List.drop (b.length + 3) (b ++ (fence ++ c)) = c := by
    rw [← List.drop_drop, List.drop_left]
    rfl
  dsimp only
  rw [hdrop]

/-- Claim C1: every token extractHashtags returns is matched against the
input with fenced code blocks removed, at a position delimited by whitespace
or a string boundary on both sides and not immediately preceded by ://, and
is a nonempty run of non-whitespace non-# characters after its leading #;
moreover the contents of a fenced code block never influence the result —
extracting over a string with a backtick-free fenced block inserted equals
extracting over the string without it. -/
theorem C1_extractHashtags_sound :
    (∀ (s t : List Char), t ∈ extractHashtags s →
      ∃ u v, removeCodeBlocks s = u ++ t ++ v ∧
        (u = [] ∨ ∃ c, u.getLast? = some c ∧ jsWs c = true) ∧
        urlBefore u.reverse = false ∧
        (v = [] ∨ ∃ c, v.head? = some c ∧ jsWs c = true) ∧
        (∃ r, t = '#' :: r ∧ r ≠ [] ∧ ∀ c ∈ r, jsWs c = false ∧ c ≠ '#')) ∧
    (∀ a b c : List Char, (∀ x ∈ a, x ≠ btick) → (∀ x ∈ b, x ≠ btick) →
      extractHashtags (a ++ (fence ++ (b ++ (fence ++ c)))) = extractHashtags (a ++ c)) := by
  constructor
  · intro s t ht
    unfold extractHashtags at ht
    have hs := scanTags_spec (removeCodeBlocks s).length (removeCodeBlocks s)
      (Nat.le_refl _) [] t ht
    simpa using hs
  · intro a b c ha hb
    unfold extractHashtags
    rw [rcb_append_no_tick a _ ha, rcb_append_no_tick a c ha, rcb_block b c hb]

/-- Claim C1 witness: the soundness facts at the concrete input "x #t", and
block irrelevance at a concrete fenced input. -/
theorem C1_witness :
    (∃ u v, removeCodeBlocks ['x', ' ', '#', 't'] = u ++ ['#', 't'] ++ v ∧
      (u = [] ∨ ∃ c, u.getLast? = some c ∧ jsWs c = true) ∧
      urlBefore u.reverse = false ∧
      (v = [] ∨ ∃ c, v.head? = some c ∧ jsWs c = true) ∧
      (∃ r, ['#', 't'] = '#' :: r ∧ r ≠ [] ∧ ∀ c ∈ r, jsWs c = false ∧ c ≠ '#')) ∧
    extractHashtags (['a', ' '] ++ (fence ++ ([' ', '#', 'i', ' '] ++ (fence ++
        [' ', '#', 'o'])))) =
      extractHashtags (['a', ' '] ++ [' ', '#', 'o']) :=
  ⟨C1_extractHashtags_sound.1 ['x', ' ', '#', 't'] ['#', 't']
      (by simp +decide [extractHashtags, removeCodeBlocks, scanTags]),
   C1_extractHashtags_sound.2 ['a', ' '] [' ', '#', 'i', ' '] [' ', '#', 'o']
      (by decide) (by decide)⟩

/-! ## Claim C2: the reference diff of upsert -/

@[simp] theorem attachPhase_notes (nid : Nat) (atts : List (List Char × List Char × Nat))
    (db : DB) : (attachPhase nid atts db).notes = db.notes := by
  unfold attachPhase
  rw [addAttRows_notes]

@[simp] theorem attachPhase_tags (nid : Nat) (atts : List (List Char × List Char × Nat))
    (db : DB) : (attachPhase nid atts db).tags = db.tags := by
  unfold attachPhase
  rw [addAttRows_tags]

@[simp] theorem attachPhase_tagsToNote (nid : Nat) (atts : List (List Char × List Char × Nat))
    (db : DB) : (attachPhase nid atts db).tagsToNote = db.tagsToNote := by
  unfold attachPhase
  rw [addAttRows_tagsToNote]

@[simp] theorem attachPhase_noteRefs (nid : Nat) (atts : List (List Char × List Char × Nat))
    (db : DB) : (attachPhase nid atts db).noteRefs = db.noteRefs := by
  unfold attachPhase
  rw [addAttRows_noteRefs]

@[simp] theorem attachPhase_nextTagId (nid : Nat) (atts : List (List Char × List Char × Nat))
    (db : DB) : (attachPhase nid atts db).nextTagId = db.nextTagId := by
  unfold attachPhase
  rw [addAttRows_nextTagId]

theorem mem_outRefIds (db : DB) (nid x : Nat) :
    x ∈ outRefIds db nid ↔ (nid, x) ∈ db.noteRefs := by
  unfold outRefIds
  simp only [List.mem_map, List.mem_filter]
  constructor
  · rintro ⟨r, ⟨hr, hfst⟩, hsnd⟩
    simp only [decide_eq_true_eq] at hfst
    have hrx : r = (nid, x) := by
      cases r
      simp_all
    rw [← hrx]
    exact hr
  · intro h
    exact ⟨(nid, x), ⟨h, by simp⟩, rfl⟩

@[simp] theorem outRefIds_handleAddTags (acct : Nat) (noteId : Option Nat)
    (tree : List TagTreeNode) (p : Option Tag) (db : DB) (acc : List Tag) (nid : Nat) :
    outRefIds (handleAddTags acct noteId tree p db acc).1 nid = outRefIds db nid := by
  unfold outRefIds
  rw [handleAddTags_noteRefs]

theorem refdiff_mem (L : List (Nat × Nat)) (old refs : List Nat) (nid x : Nat)
    (h : ∀ y, (nid, y) ∈ L ↔ y ∈ old) :
    ((nid, x) ∈ (L ++ (refs.filter (fun i => decide (i ∉ old))).map
        (fun t => (nid, t))).filter
        (fun r => decide ¬(r.1 = nid ∧ r.2 ∈ old.filter (fun i => decide (i ∉ refs))))
      ↔ x ∈ refs) := by
  simp only [List.mem_filter, List.mem_append, List.mem_map, decide_eq_true_eq, h,
    Prod.mk.injEq, true_and, exists_eq_right]
  tauto

theorem upsertSync_refs (acct : Nat) (tree : List TagTreeNode) (refs : List Nat)
    (atts : List (List Char × List Char × Nat)) (nid : Nat) (db : DB) (x : Nat)
    (hok : (upsertSync acct tree refs atts nid db).1 = true) :
    (x ∈ outRefIds (upsertSync acct tree refs atts nid db).2 nid ↔ x ∈ refs) := by
  unfold upsertSync at hok ⊢
  dsimp only at hok ⊢
  set dres := delRelIds (joinedTags db nid)
    (List.filter (fun k => decide (k ∉ List.map (fun t => keyOf t.name t.parent)
        (handleAddTags acct (some nid) tree none db []).2))
      (List.map (fun t => keyOf t.name t.parent) (joinedTags db nid))) with hd
  rcases dres with _ | delIds
  · simp at hok
  · dsimp only at hok ⊢
    rw [mem_outRefIds]
    simp only [attachPhase_noteRefs, addRelLoop_noteRefs, handleAddTags_noteRefs,
      outRefIds_handleAddTags]
    exact refdiff_mem db.noteRefs (outRefIds db nid) refs nid x
      (fun y => (mem_outRefIds db nid y).symm)

/-- Claim C2: for a completed upsert of an existing note with non-null
content, the post-state outgoing reference set of the note is exactly the
input references set — removed targets are deleted, new targets created. -/
theorem C2_reference_diff (acct : Nat) (tree : List TagTreeNode) (inp : UpsertInput)
    (db : DB) (nid : Nat) (note : Note) (c0 : List Char)
    (hid : inp.id = some nid) (hfind : findNote db nid acct = some note)
    (hc : inp.content = some c0)
    (hok : (upsertModel acct tree inp db).1 = true) :
    ∀ x, x ∈ outRefIds (upsertModel acct tree inp db).2 nid ↔ x ∈ inp.references.getD [] := by
  unfold upsertModel at hok ⊢
  rw [hid] at hok ⊢
  dsimp only at hok ⊢
  rw [hfind] at hok ⊢
  dsimp only at hok ⊢
  rw [hc] at hok ⊢
  dsimp only at hok ⊢
  intro x
  exact upsertSync_refs _ _ _ _ _ _ x hok

/-- Claim C2 witness: with persisted outgoing references {1,2,3} and input
references {2,3,4}, the completed upsert has created the edge to 4 and
deleted the edge to 1. -/
theorem C2_witness :
    4 ∈ outRefIds (upsertModel 1 []
        ⟨some ['x'], 0, [], some 1, none, none, none, none, some [2, 3, 4]⟩
        ⟨[⟨1, 1, [], 0, false, false, false, false⟩], [], [], [(1, 1), (1, 2), (1, 3)],
          [], 1, 100, 1⟩).2 1 ∧
    ¬ 1 ∈ outRefIds (upsertModel 1 []
        ⟨some ['x'], 0, [], some 1, none, none, none, none, some [2, 3, 4]⟩
        ⟨[⟨1, 1, [], 0, false, false, false, false⟩], [], [], [(1, 1), (1, 2), (1, 3)],
          [], 1, 100, 1⟩).2 1 := by
  have h := C2_reference_diff 1 []
    ⟨some ['x'], 0, [], some 1, none, none, none, none, some [2, 3, 4]⟩
    ⟨[⟨1, 1, [], 0, false, false, false, false⟩], [], [], [(1, 1), (1, 2), (1, 3)],
      [], 1, 100, 1⟩ 1 ⟨1, 1, [], 0, false, false, false, false⟩ ['x'] rfl (by decide) rfl
    (by simp +decide [upsertModel, findNote, applyFlags, upsertSync, joinedTags, handleAddTags,
      outRefIds, delRelIds, addRelLoop, attachPhase, addAttRows])
  constructor
  · exact (h 4).mpr (by decide)
  · intro hx
    have h1 := (h 1).mp hx
    simp at h1

/-! ## Claim C3: orphan tag cleanup -/


theorem natToChars_lt10 (n : Nat) (h : n < 10) : natToChars n = [Char.ofNat (48 + n)] := by
  rw [natToChars]
  exact if_pos h

theorem findOrCreate_tags_append (acct : Nat) (name : List Char) (pid : Nat) (db : DB) :
    ∃ new, (findOrCreate acct name pid db).2.tags = db.tags ++ new := by
  unfold findOrCreate
  split
  · exact ⟨[], by simp⟩
  · exact ⟨[⟨db.nextTagId, name, pid, acct⟩], rfl⟩

theorem handleAddTags_tags_append (acct : Nat) (noteId : Option Nat)
    (forest : List TagTreeNode) :
    ∀ (parent : Option Tag) (db : DB) (acc : List Tag),
      ∃ new, (handleAddTags acct noteId forest parent db acc).1.tags = db.tags ++ new := by
  induction forest using forest_induction with
  | hnil =>
    intro parent db acc
    exact ⟨[], by unfold handleAddTags; simp⟩
  | hcons name children rest ihc ihr =>
    intro parent db acc
    unfold handleAddTags
    dsimp only
    obtain ⟨n1, h1⟩ := findOrCreate_tags_append acct name (pidOf parent) db
    obtain ⟨n2, h2⟩ := ihc (some (findOrCreate acct name (pidOf parent) db).1)
      (ensureRel noteId (findOrCreate acct name (pidOf parent) db).1.id
        (findOrCreate acct name (pidOf parent) db).2) acc
    obtain ⟨n3, h3⟩ := ihr parent
      (handleAddTags acct noteId children (some (findOrCreate acct name (pidOf parent) db).1)
        (ensureRel noteId (findOrCreate acct name (pidOf parent) db).1.id
          (findOrCreate acct name (pidOf parent) db).2) acc).1
      ((handleAddTags acct noteId children (some (findOrCreate acct name (pidOf parent) db).1)
        (ensureRel noteId (findOrCreate acct name (pidOf parent) db).1.id
          (findOrCreate acct name (pidOf parent) db).2) acc).2 ++
        [(findOrCreate acct name (pidOf parent) db).1])
    refine ⟨n1 ++ (n2 ++ n3), ?_⟩
    rw [h3, h2, ensureRel_tags, h1]
    simp

theorem find?_id_of_nodup (tags : List Tag) (T : Tag) (hN : (tags.map Tag.id).Nodup)
    (hT : T ∈ tags) : tags.find? (fun t => decide (t.id = T.id)) = some T := by
  induction tags with
  | nil => cases hT
  | cons a rest ih =>
    rcases List.mem_cons.mp hT with rfl | hmem
    · simp [List.find?]
    · have haid : a.id ≠ T.id := by
        simp only [List.map_cons, List.nodup_cons] at hN
        intro he
        exact hN.1 (he ▸ List.mem_map_of_mem Tag.id hmem)
      rw [List.find?_cons]
      rw [show (decide (a.id = T.id)) = false by simpa using haid]
      exact ih (by simp only [List.map_cons, List.nodup_cons] at hN; exact hN.2) hmem

theorem mem_joinedTags_of (db : DB) (nid : Nat) (T : Tag)
    (hN : (db.tags.map Tag.id).Nodup) (hT : T ∈ db.tags)
    (hrel : (T.id, nid) ∈ db.tagsToNote) : T ∈ joinedTags db nid := by
  unfold joinedTags
  apply List.mem_filterMap.mpr
  refine ⟨(T.id, nid), ?_, ?_⟩
  · exact List.mem_filter.mpr ⟨hrel, by simp⟩
  · exact find?_id_of_nodup db.tags T hN hT

theorem orphan_iff (tags0 : List Tag) (RELS : List (Nat × Nat)) (allTagIds : List Nat)
    (T : Tag) (acct : Nat) (hT : T ∈ tags0) (hall : T.id ∈ allTagIds)
    (hacct : T.accountId = acct) (hpos : T.id ≠ 0) :
    (T ∈ tags0.filter (fun t => decide (¬ (t.id ∈ allTagIds.filter (fun i => decide (i ∉
          ((RELS.filter (fun r => decide (r.1 ∈ allTagIds))).map Prod.fst).filter
            (fun i => decide (i ≠ 0)))) ∧ t.accountId = acct)))
      ↔ T.id ∈ RELS.map Prod.fst) := by
  constructor
  · intro hmem
    have hp := (List.mem_filter.mp hmem).2
    simp only [decide_eq_true_eq] at hp
    have husing : T.id ∈ ((RELS.filter (fun r => decide (r.1 ∈ allTagIds))).map
        Prod.fst).filter (fun i => decide (i ≠ 0)) := by
      by_contra hnu
      exact hp ⟨List.mem_filter.mpr ⟨hall, by simpa using hnu⟩, hacct⟩
    have h2 := (List.mem_filter.mp husing).1
    obtain ⟨r, hrmem, hr1⟩ := List.mem_map.mp h2
    exact List.mem_map.mpr ⟨r, (List.mem_filter.mp hrmem).1, hr1⟩
  · intro hmem
    obtain ⟨r, hrR, hr1⟩ := List.mem_map.mp hmem
    have husing : T.id ∈ ((RELS.filter (fun r => decide (r.1 ∈ allTagIds))).map
        Prod.fst).filter (fun i => decide (i ≠ 0)) := by
      apply List.mem_filter.mpr
      constructor
      · exact List.mem_map.mpr ⟨r, List.mem_filter.mpr ⟨hrR, by simp [hr1, hall]⟩, hr1⟩
      · simpa using hpos
    apply List.mem_filter.mpr
    refine ⟨hT, ?_⟩
    simp only [decide_eq_true_eq]
    rintro ⟨hdel, -⟩
    have hnd := (List.mem_filter.mp hdel).2
    simp only [decide_eq_true_eq] at hnd
    exact hnd husing

theorem upsertSync_orphan (acct : Nat) (tree : List TagTreeNode) (refs : List Nat)
    (atts : List (List Char × List Char × Nat)) (nid : Nat) (db : DB) (T : Tag)
    (hok : (upsertSync acct tree refs atts nid db).1 = true)
    (hT : T ∈ db.tags) (hrel : (T.id, nid) ∈ db.tagsToNote) (hacct : T.accountId = acct)
    (hnodup : (db.tags.map Tag.id).Nodup) (hpos : T.id ≠ 0) :
    (T ∈ (upsertSync acct tree refs atts nid db).2.tags ↔
      T.id ∈ (upsertSync acct tree refs atts nid db).2.tagsToNote.map Prod.fst) := by
  unfold upsertSync at hok ⊢
  dsimp only at hok ⊢
  set dres := delRelIds (joinedTags db nid)
    (List.filter (fun k => decide (k ∉ List.map (fun t => keyOf t.name t.parent)
        (handleAddTags acct (some nid) tree none db []).2))
      (List.map (fun t => keyOf t.name t.parent) (joinedTags db nid))) with hd
  rcases dres with _ | delIds
  · simp at hok
  · dsimp only at hok ⊢
    simp only [attachPhase_tags, attachPhase_tagsToNote, addRelLoop_tags]
    obtain ⟨new, hnew⟩ := handleAddTags_tags_append acct (some nid) tree none db []
    rw [hnew]
    apply orphan_iff
    · exact List.mem_append_left new hT
    · exact List.mem_map_of_mem Tag.id (mem_joinedTags_of db nid T hnodup hT hrel)
    · exact hacct
    · exact hpos



theorem filter_single_note (notes : List Note) (n : Note) (nid acct : Nat)
    (hN : (notes.map Note.id).Nodup) (hmem : n ∈ notes) (hid : n.id = nid)
    (hacct : n.accountId = acct) :
    notes.filter (fun m => decide (m.id ∈ [nid] ∧ m.accountId = acct)) = [n] := by
  induction notes with
  | nil => cases hmem
  | cons a rest ih =>
    simp only [List.map_cons, List.nodup_cons] at hN
    rcases List.mem_cons.mp hmem with rfl | hmem2
    · rw [List.filter_cons]
      rw [show decide (n.id ∈ [nid] ∧ n.accountId = acct) = true by simp [hid, hacct]]
      have hrest : rest.filter (fun m => decide (m.id ∈ [nid] ∧ m.accountId = acct)) = [] := by
        rw [List.filter_eq_nil_iff]
        intro m hm
        simp only [List.mem_singleton, decide_eq_true_eq]
        rintro ⟨h1, -⟩
        apply hN.1
        rw [hid, ← h1]
        exact List.mem_map_of_mem Note.id hm
      rw [hrest]
      simp
    · rw [List.filter_cons]
      have hfa : decide (a.id ∈ [nid] ∧ a.accountId = acct) = false := by
        simp only [List.mem_singleton, decide_eq_false_iff_not]
        rintro ⟨h1, -⟩
        apply hN.1
        rw [h1, ← hid]
        exact List.mem_map_of_mem Note.id hmem2
      rw [hfa]
      simp only [Bool.false_eq_true, if_false]
      exact ih hN.2 hmem2

theorem orphanJoin_iff (tags0 : List Tag) (RELS : List (Nat × Nat)) (allTagIds : List Nat)
    (T : Tag) (acct : Nat) (hT : T ∈ tags0) (hall : T.id ∈ allTagIds)
    (hacct : T.accountId = acct) (hpos : T.id ≠ 0)
    (hN : (tags0.map Tag.id).Nodup) :
    (T ∈ tags0.filter (fun t => decide (¬ (t.id ∈ allTagIds.filter (fun i => decide (i ∉
          (((RELS.filter (fun r => decide (r.1 ∈ allTagIds))).filterMap
            (fun r => tags0.find? (fun t => decide (t.id = r.1)))).map Tag.id).filter
            (fun i => decide (i ≠ 0)))) ∧ t.accountId = acct)))
      ↔ T.id ∈ RELS.map Prod.fst) := by
  constructor
  · intro hmem
    have hp := (List.mem_filter.mp hmem).2
    simp only [decide_eq_true_eq] at hp
    have husing : T.id ∈ (((RELS.filter (fun r => decide (r.1 ∈ allTagIds))).filterMap
        (fun r => tags0.find? (fun t => decide (t.id = r.1)))).map Tag.id).filter
        (fun i => decide (i ≠ 0)) := by
      by_contra hnu
      exact hp ⟨List.mem_filter.mpr ⟨hall, by simpa using hnu⟩, hacct⟩
    have h2 := (List.mem_filter.mp husing).1
    obtain ⟨t2, ht2mem, ht2id⟩ := List.mem_map.mp h2
    obtain ⟨r, hrmem, hrfind⟩ := List.mem_filterMap.mp ht2mem
    have hprop := List.find?_some hrfind
    simp only [decide_eq_true_eq] at hprop
    refine List.mem_map.mpr ⟨r, (List.mem_filter.mp hrmem).1, ?_⟩
    rw [← hprop, ht2id]
  · intro hmem
    obtain ⟨r, hrR, hr1⟩ := List.mem_map.mp hmem
    have hfind : tags0.find? (fun t => decide (t.id = r.1)) = some T := by
      rw [hr1]
      exact find?_id_of_nodup tags0 T hN hT
    have husing : T.id ∈ (((RELS.filter (fun r => decide (r.1 ∈ allTagIds))).filterMap
        (fun r => tags0.find? (fun t => decide (t.id = r.1)))).map Tag.id).filter
        (fun i => decide (i ≠ 0)) := by
      apply List.mem_filter.mpr
      constructor
      · exact List.mem_map.mpr ⟨T,
          List.mem_filterMap.mpr ⟨r, List.mem_filter.mpr ⟨hrR, by simp [hr1, hall]⟩, hfind⟩, rfl⟩
      · simpa using hpos
    apply List.mem_filter.mpr
    refine ⟨hT, ?_⟩
    simp only [decide_eq_true_eq]
    rintro ⟨hdel, -⟩
    have hnd := (List.mem_filter.mp hdel).2
    simp only [decide_eq_true_eq] at hnd
    exact hnd husing

theorem deleteMany_orphan (acct : Nat) (db : DB) (nid : Nat) (T : Tag) (n : Note)
    (hmem : n ∈ db.notes) (hid : n.id = nid) (hacct2 : n.accountId = acct)
    (hNotes : (db.notes.map Note.id).Nodup)
    (hT : T ∈ db.tags) (hrel : (T.id, nid) ∈ db.tagsToNote) (hacct : T.accountId = acct)
    (hnodup : (db.tags.map Tag.id).Nodup) (hpos : T.id ≠ 0) :
    (T ∈ (deleteManyModel acct [nid] db).tags ↔
      ∃ r ∈ db.tagsToNote, r.1 = T.id ∧ r.2 ≠ nid) := by
  unfold deleteManyModel
  dsimp only
  rw [filter_single_note db.notes n nid acct hNotes hmem hid hacct2]
  unfold deleteLoop
  unfold deleteLoop
  unfold deleteNoteStep
  dsimp only
  rw [hid]
  have hall : T.id ∈ (joinedTags db nid).map Tag.id :=
    List.mem_map_of_mem Tag.id (mem_joinedTags_of db nid T hnodup hT hrel)
  have hconv : (T.id ∈ (db.tagsToNote.filter (fun r => decide (¬ r.2 = nid))).map Prod.fst) ↔
      ∃ r ∈ db.tagsToNote, r.1 = T.id ∧ r.2 ≠ nid := by
    simp only [List.mem_map, List.mem_filter, decide_eq_true_eq]
    constructor
    · rintro ⟨r, ⟨hr, hrn⟩, hr1⟩
      exact ⟨r, hr, hr1, hrn⟩
    · rintro ⟨r, hr, hr1, hrn⟩
      exact ⟨r, ⟨hr, hrn⟩, hr1⟩
  rw [← hconv]
  exact orphanJoin_iff db.tags (db.tagsToNote.filter (fun r => decide (¬ r.2 = nid)))
    ((joinedTags db nid).map Tag.id) T acct hT hall hacct hpos hnodup



/-- Claim C3: orphan tag cleanup. After a completed upsert of an existing
note with non-null content, a tag T that was associated with the note (and
belongs to the acting account) remains in the store exactly when some
tagsToNote row still references it afterwards; and after deleteMany of a
note, such a T remains exactly when a row of another note referenced it
beforehand. In particular a tag shared with another note is retained and an
exclusive tag is deleted. -/
theorem C3_orphan_cleanup :
    (∀ (acct : Nat) (tree : List TagTreeNode) (inp : UpsertInput) (db : DB) (nid : Nat)
        (note : Note) (c0 : List Char) (T : Tag),
      inp.id = some nid → findNote db nid acct = some note → inp.content = some c0 →
      (upsertModel acct tree inp db).1 = true →
      T ∈ db.tags → (T.id, nid) ∈ db.tagsToNote → T.accountId = acct →
      (db.tags.map Tag.id).Nodup → T.id ≠ 0 →
      (T ∈ (upsertModel acct tree inp db).2.tags ↔
        T.id ∈ (upsertModel acct tree inp db).2.tagsToNote.map Prod.fst)) ∧
    (∀ (acct : Nat) (db : DB) (nid : Nat) (T : Tag) (n : Note),
      n ∈ db.notes → n.id = nid → n.accountId = acct →
      (db.notes.map Note.id).Nodup →
      T ∈ db.tags → (T.id, nid) ∈ db.tagsToNote → T.accountId = acct →
      (db.tags.map Tag.id).Nodup → T.id ≠ 0 →
      (T ∈ (deleteManyModel acct [nid] db).tags ↔
        ∃ r ∈ db.tagsToNote, r.1 = T.id ∧ r.2 ≠ nid)) := by
  constructor
  · intro acct tree inp db nid note c0 T hid hfind hc hok hT hrel hacct hnodup hpos
    unfold upsertModel at hok ⊢
    rw [hid] at hok ⊢
    dsimp only at hok ⊢
    rw [hfind] at hok ⊢
    dsimp only at hok ⊢
    rw [hc] at hok ⊢
    dsimp only at hok ⊢
    exact upsertSync_orphan acct tree _ _ nid _ T hok hT hrel hacct hnodup hpos
  · intro acct db nid T n hmem hid hacct2 hNotes hT hrel hacct hnodup hpos
    exact deleteMany_orphan acct db nid T n hmem hid hacct2 hNotes hT hrel hacct hnodup hpos

/-- Claim C3 witness: an upsert whose new content carries no tags deletes
the note's previously exclusive tag; deleteMany of note 1, whose tag s is
shared with note 2 and whose tag e is exclusive, retains s and deletes only
e. -/
theorem C3_witness :
    (¬ (⟨1, ['t'], 0, 1⟩ : Tag) ∈
      (upsertModel 1 [] ⟨some ['x'], 0, [], some 1, none, none, none, none, none⟩
        ⟨[⟨1, 1, [], 0, false, false, false, false⟩], [⟨1, ['t'], 0, 1⟩], [(1, 1)], [], [],
          2, 100, 1⟩).2.tags) ∧
    (⟨1, ['s'], 0, 1⟩ : Tag) ∈
      (deleteManyModel 1 [1]
        ⟨[⟨1, 1, [], 0, false, false, false, false⟩, ⟨2, 1, [], 0, false, false, false, false⟩],
          [⟨1, ['s'], 0, 1⟩, ⟨2, ['e'], 0, 1⟩], [(1, 1), (2, 1), (1, 2)], [], [],
          3, 100, 1⟩).tags ∧
    ¬ (⟨2, ['e'], 0, 1⟩ : Tag) ∈
      (deleteManyModel 1 [1]
        ⟨[⟨1, 1, [], 0, false, false, false, false⟩, ⟨2, 1, [], 0, false, false, false, false⟩],
          [⟨1, ['s'], 0, 1⟩, ⟨2, ['e'], 0, 1⟩], [(1, 1), (2, 1), (1, 2)], [], [],
          3, 100, 1⟩).tags := by
  refine ⟨?_, ?_, ?_⟩
  · intro h
    have hiff := C3_orphan_cleanup.1 1 [] ⟨some ['x'], 0, [], some 1, none, none, none, none, none⟩
      ⟨[⟨1, 1, [], 0, false, false, false, false⟩], [⟨1, ['t'], 0, 1⟩], [(1, 1)], [], [],
        2, 100, 1⟩ 1 ⟨1, 1, [], 0, false, false, false, false⟩ ['x'] ⟨1, ['t'], 0, 1⟩
      rfl (by decide) rfl
      (by simp [upsertModel, findNote, applyFlags, upsertSync, joinedTags, handleAddTags,
        outRefIds, delRelIds, addRelLoop, attachPhase, addAttRows, keyOf,
        natToChars_lt10 0 (by omega), parsedLookup, splitAtDelim, firstPart, charsToNat?,
        startsWithPat, keyDelim, show isDigitCh (Char.ofNat 48) = true from by decide])
      (by decide) (by decide) rfl (by decide) (by decide)
    have hmem := hiff.mp h
    simp [upsertModel, findNote, applyFlags, upsertSync, joinedTags, handleAddTags,
      outRefIds, delRelIds, addRelLoop, attachPhase, addAttRows, keyOf,
      natToChars_lt10 0 (by omega), parsedLookup, splitAtDelim, firstPart, charsToNat?,
      startsWithPat, keyDelim, show isDigitCh (Char.ofNat 48) = true from by decide] at hmem
  · exact (C3_orphan_cleanup.2 1
      ⟨[⟨1, 1, [], 0, false, false, false, false⟩, ⟨2, 1, [], 0, false, false, false, false⟩],
        [⟨1, ['s'], 0, 1⟩, ⟨2, ['e'], 0, 1⟩], [(1, 1), (2, 1), (1, 2)], [], [],
        3, 100, 1⟩ 1 ⟨1, ['s'], 0, 1⟩ ⟨1, 1, [], 0, false, false, false, false⟩
      (by decide) rfl rfl (by decide) (by decide) (by decide) rfl (by decide) (by decide)).mpr
      (by decide)
  · intro h
    have hiff := C3_orphan_cleanup.2 1
      ⟨[⟨1, 1, [], 0, false, false, false, false⟩, ⟨2, 1, [], 0, false, false, false, false⟩],
        [⟨1, ['s'], 0, 1⟩, ⟨2, ['e'], 0, 1⟩], [(1, 1), (2, 1), (1, 2)], [], [],
        3, 100, 1⟩ 1 ⟨2, ['e'], 0, 1⟩ ⟨1, 1, [], 0, false, false, false, false⟩
      (by decide) rfl rfl (by decide) (by decide) (by decide) rfl (by decide) (by decide)
    have hex := hiff.mp h
    revert hex
    decide

end Blinko

namespace Blinko

theorem digit_facts (d : Nat) (hd : d < 10) :
    isDigitCh (Char.ofNat (48 + d)) = true ∧ (Char.ofNat (48 + d)).toNat = 48 + d := by
  interval_cases d <;> exact ⟨by decide, by decide⟩

theorem natToChars_all_digits (n : Nat) : (natToChars n).all isDigitCh = true := by
  induction n using natToChars.induct with
  | case1 n h =>
    rw [natToChars_lt10 n h]
    simp [(digit_facts n h).1]
  | case2 n h ih =>
    rw [natToChars]
    rw [if_neg h]
    rw [List.all_append]
    rw [ih]
    simp [(digit_facts (n % 10) (Nat.mod_lt n (by omega))).1]

theorem natToChars_val (n : Nat) :
    ∀ a : Nat, (natToChars n).foldl (fun a c => a * 10 + (c.toNat - 48)) a =
      a * 10 ^ (natToChars n).length + n := by
  induction n using natToChars.induct with
  | case1 n h =>
    intro a
    rw [natToChars_lt10 n h]
    simp [(digit_facts n h).2]
  | case2 n h ih =>
    intro a
    rw [natToChars, if_neg h, List.foldl_append, List.length_append, ih a]
    simp only [List.foldl_cons, List.foldl_nil, List.length_cons, List.length_nil,
      Nat.zero_add]
    rw [(digit_facts (n % 10) (Nat.mod_lt n (by omega))).2]
    rw [Nat.add_sub_cancel_left]
    have hnd : n / 10 * 10 + n % 10 = n := by omega
    calc (a * 10 ^ (natToChars (n / 10)).length + n / 10) * 10 + n % 10
        = a * (10 ^ (natToChars (n / 10)).length * 10) + (n / 10 * 10 + n % 10) := by ring
      _ = a * 10 ^ ((natToChars (n / 10)).length + 1) + n := by rw [hnd, pow_succ]

theorem charsToNat_natToChars (n : Nat) : charsToNat? (natToChars n) = some n := by
  unfold charsToNat?
  rw [if_pos (natToChars_all_digits n)]
  rw [natToChars_val n 0]
  simp

end Blinko

namespace Blinko

theorem hasDelim_digits (l : List Char) (h : l.all isDigitCh = true) :
    hasDelim l = false := by
  induction l with
  | nil => rfl
  | cons c rest ih =>
    rw [List.all_cons, Bool.and_eq_true] at h
    unfold hasDelim
    rw [ih h.2]
    have hc : startsWithPat keyDelim (c :: rest) = false := by
      unfold keyDelim startsWithPat
      have hlt : decide ('<' = c) = false := by
        have hd := h.1
        unfold isDigitCh at hd
        simp only [decide_eq_true_eq] at hd
        simp only [decide_eq_false_iff_not]
        intro he
        have : c.toNat = 60 := by rw [← he]; decide
        omega
      rw [hlt]
      simp
    rw [hc]
    simp

theorem splitAtDelim_noDelim (l : List Char) (h : hasDelim l = false) :
    splitAtDelim l = none := by
  induction l with
  | nil => rfl
  | cons c rest ih =>
    unfold hasDelim at h
    rw [Bool.or_eq_false_iff] at h
    unfold splitAtDelim
    rw [h.1]
    simp only [Bool.false_eq_true, if_false]
    rw [ih h.2]

theorem splitAtDelim_key (name rest : List Char) (h : hasDelim name = false) :
    splitAtDelim (name ++ (keyDelim ++ rest)) = some (name, rest) := by
  induction name with
  | nil =>
    simp [splitAtDelim, startsWithPat, keyDelim]
  | cons c n2 ih =>
    unfold hasDelim at h
    rw [Bool.or_eq_false_iff] at h
    have hstep : startsWithPat keyDelim (c :: (n2 ++ (keyDelim ++ rest))) = false := by
      match n2, h.1 with
      | [], _ => simp [startsWithPat, keyDelim]
      | [a], _ => simp [startsWithPat, keyDelim]
      | [a, b], _ => simp [startsWithPat, keyDelim]
      | [a, b, d], _ => simp [startsWithPat, keyDelim]
      | a :: b :: d :: e :: n3, h1 =>
        simp only [keyDelim, startsWithPat, List.cons_append, Bool.and_true] at h1 ⊢
        exact h1
    rw [List.cons_append]
    unfold splitAtDelim
    rw [hstep]
    simp only [Bool.false_eq_true, if_false]
    rw [ih h.2]

theorem firstPart_noDelim (l : List Char) (h : hasDelim l = false) :
    firstPart l = l := by
  unfold firstPart
  rw [splitAtDelim_noDelim l h]

theorem parsedLookup_keyOf (tags : List Tag) (name : List Char) (p : Nat)
    (h : hasDelim name = false) :
    parsedLookup tags (keyOf name p) =
      tags.find? (fun t => decide (t.name = name ∧ t.parent = p)) := by
  unfold parsedLookup keyOf
  rw [List.append_assoc, splitAtDelim_key name (natToChars p) h]
  dsimp only
  rw [firstPart_noDelim _ (hasDelim_digits _ (natToChars_all_digits p))]
  rw [charsToNat_natToChars p]

theorem keyOf_inj (n1 n2 : List Char) (p1 p2 : Nat)
    (h1 : hasDelim n1 = false) (h2 : hasDelim n2 = false)
    (he : keyOf n1 p1 = keyOf n2 p2) : n1 = n2 ∧ p1 = p2 := by
  have hs1 := splitAtDelim_key n1 (natToChars p1) h1
  have hs2 := splitAtDelim_key n2 (natToChars p2) h2
  unfold keyOf at he
  rw [List.append_assoc, List.append_assoc] at he
  rw [he, hs2] at hs1
  rw [Option.some_inj, Prod.mk.injEq] at hs1
  refine ⟨hs1.1.symm, ?_⟩
  have := hs1.2
  have hv1 := charsToNat_natToChars p1
  rw [← this, charsToNat_natToChars p2, Option.some_inj] at hv1
  omega

end Blinko

namespace Blinko

theorem findTag_some_spec (tags : List Tag) (name : List Char) (pid acct : Nat) (t : Tag)
    (h : findTag tags name pid acct = some t) :
    t ∈ tags ∧ t.name = name ∧ t.parent = pid ∧ t.accountId = acct := by
  unfold findTag at h
  have hm := List.mem_of_find?_eq_some h
  have hp := List.find?_some h
  simp only [decide_eq_true_eq] at hp
  exact ⟨hm, hp.1, hp.2.1, hp.2.2⟩

theorem findTag_uniq (tags : List Tag) (t : Tag)
    (huniq : ∀ t1 ∈ tags, ∀ t2 ∈ tags, t1.name = t2.name → t1.parent = t2.parent →
      t1.accountId = t2.accountId → t1 = t2)
    (ht : t ∈ tags) :
    findTag tags t.name t.parent t.accountId = some t := by
  induction tags with
  | nil => cases ht
  | cons a rest ih =>
    unfold findTag
    rw [List.find?_cons]
    by_cases ha : a.name = t.name ∧ a.parent = t.parent ∧ a.accountId = t.accountId
    · have hat : a = t := huniq a (List.mem_cons_self a rest) t ht ha.1 ha.2.1 ha.2.2
      rw [show decide (a.name = t.name ∧ a.parent = t.parent ∧ a.accountId = t.accountId)
        = true from by simp [ha]]
      rw [hat]
    · rw [show decide (a.name = t.name ∧ a.parent = t.parent ∧ a.accountId = t.accountId)
        = false from by simpa using ha]
      have ht2 : t ∈ rest := by
        rcases List.mem_cons.mp ht with rfl | hm
        · exact absurd ⟨rfl, rfl, rfl⟩ ha
        · exact hm
      have h3 := ih (fun t1 h1 t2 h2 => huniq t1 (List.mem_cons_of_mem a h1) t2
        (List.mem_cons_of_mem a h2)) ht2
      unfold findTag at h3
      exact h3

theorem tagsWf_congr (db db' : DB) (ht : db'.tags = db.tags)
    (hn : db'.nextTagId = db.nextTagId) (h : TagsWf db) : TagsWf db' := by
  constructor
  · rw [ht]; exact h.nodup
  · rw [ht]; exact h.pos
  · rw [ht, hn]; exact h.fresh
  · rw [hn]; exact h.posCounter
  · rw [ht]; exact h.uniq

theorem dbDelimFree_congr (db db' : DB) (ht : db'.tags = db.tags)
    (h : dbDelimFree db) : dbDelimFree db' := by
  unfold dbDelimFree at *
  rw [ht]
  exact h

theorem tagsWf_filter (db : DB) (p : Tag → Bool) (h : TagsWf db) :
    TagsWf { db with tags := db.tags.filter p } := by
  have hs : (db.tags.filter p).Sublist db.tags := List.filter_sublist db.tags
  constructor
  · exact List.Sublist.nodup (List.Sublist.map Tag.id hs) h.nodup
  · intro t ht; exact h.pos t (List.mem_of_mem_filter ht)
  · intro t ht; exact h.fresh t (List.mem_of_mem_filter ht)
  · exact h.posCounter
  · intro t1 h1 t2 h2
    exact h.uniq t1 (List.mem_of_mem_filter h1) t2 (List.mem_of_mem_filter h2)

theorem dbDelimFree_filter (db : DB) (p : Tag → Bool) (h : dbDelimFree db) :
    dbDelimFree { db with tags := db.tags.filter p } := by
  intro t ht
  exact h t (List.mem_of_mem_filter ht)

theorem joined_mem_spec (db : DB) (nid : Nat) (t : Tag) (h : t ∈ joinedTags db nid) :
    t ∈ db.tags ∧ (t.id, nid) ∈ db.tagsToNote := by
  unfold joinedTags at h
  rcases List.mem_filterMap.mp h with ⟨r, hr, hfind⟩
  have hm := List.mem_of_find?_eq_some hfind
  have hp := List.find?_some hfind
  simp only [decide_eq_true_eq] at hp
  have hrm := List.mem_filter.mp hr
  have hr2 : r.2 = nid := by simpa using hrm.2
  refine ⟨hm, ?_⟩
  rw [hp, ← hr2]
  exact hrm.1

theorem ensureRel_spec (nid tid : Nat) (db : DB) :
    (∃ adds, (ensureRel (some nid) tid db).tagsToNote = db.tagsToNote ++ adds ∧
      ∀ p ∈ adds, p.2 = nid ∧ p.1 = tid) ∧
    (tid, nid) ∈ (ensureRel (some nid) tid db).tagsToNote := by
  unfold ensureRel
  dsimp only
  by_cases h : (tid, nid) ∈ db.tagsToNote
  · rw [if_pos h]
    exact ⟨⟨[], by simp, by simp⟩, h⟩
  · rw [if_neg h]
    refine ⟨⟨[(tid, nid)], rfl, ?_⟩, by simp⟩
    intro p hp
    rw [List.mem_singleton.mp hp]
    exact ⟨rfl, rfl⟩

end Blinko

namespace Blinko

theorem findOrCreate_spec (acct : Nat) (name : List Char) (pid : Nat) (db : DB)
    (hwf : TagsWf db) :
    TagsWf (findOrCreate acct name pid db).2 ∧
    (∃ ext, (findOrCreate acct name pid db).2.tags = db.tags ++ ext) ∧
    (findOrCreate acct name pid db).1 ∈ (findOrCreate acct name pid db).2.tags ∧
    (findOrCreate acct name pid db).1.name = name ∧
    (findOrCreate acct name pid db).1.parent = pid ∧
    (findOrCreate acct name pid db).1.accountId = acct := by
  unfold findOrCreate
  rcases hf : findTag db.tags name pid acct with _ | t
  · dsimp only
    have hnone : ∀ x ∈ db.tags, ¬ (x.name = name ∧ x.parent = pid ∧ x.accountId = acct) := by
      intro x hx
      have := List.find?_eq_none.mp hf x hx
      simpa using this
    refine ⟨?_, ⟨[⟨db.nextTagId, name, pid, acct⟩], rfl⟩, by simp, rfl, rfl, rfl⟩
    constructor
    · rw [List.map_append, List.nodup_append]
      refine ⟨hwf.nodup, by simp, ?_⟩
      intro i hi hj
      simp only [List.map_cons, List.map_nil, List.mem_singleton] at hj
      rcases List.mem_map.mp hi with ⟨u, hu, hui⟩
      have := hwf.fresh u hu
      omega
    · intro u hu
      rcases List.mem_append.mp hu with h1 | h2
      · exact hwf.pos u h1
      · rw [List.mem_singleton.mp h2]
        exact hwf.posCounter
    · intro u hu
      rcases List.mem_append.mp hu with h1 | h2
      · have := hwf.fresh u h1
        dsimp only
        omega
      · rw [List.mem_singleton.mp h2]
        dsimp only
        omega
    · dsimp only
      omega
    · intro t1 h1 t2 h2 hn hp hacct
      rcases List.mem_append.mp h1 with h1a | h1b <;>
        rcases List.mem_append.mp h2 with h2a | h2b
      · exact hwf.uniq t1 h1a t2 h2a hn hp hacct
      · exfalso
        rw [List.mem_singleton.mp h2b] at hn hp hacct
        exact hnone t1 h1a ⟨hn, hp, hacct⟩
      · exfalso
        rw [List.mem_singleton.mp h1b] at hn hp hacct
        exact hnone t2 h2a ⟨hn.symm, hp.symm, hacct.symm⟩
      · rw [List.mem_singleton.mp h1b, List.mem_singleton.mp h2b]
  · dsimp only
    have hspec := findTag_some_spec db.tags name pid acct t hf
    exact ⟨hwf, ⟨[], by simp⟩, hspec.1, hspec.2.1, hspec.2.2.1, hspec.2.2.2⟩

theorem findOrCreate_df (acct : Nat) (name : List Char) (pid : Nat) (db : DB)
    (hdf : dbDelimFree db) (hn : hasDelim name = false) :
    dbDelimFree (findOrCreate acct name pid db).2 := by
  unfold findOrCreate
  rcases hf : findTag db.tags name pid acct with _ | t
  · dsimp only
    intro u hu
    rcases List.mem_append.mp hu with h1 | h2
    · exact hdf u h1
    · rw [List.mem_singleton.mp h2]
      exact hn
  · exact hdf

end Blinko

namespace Blinko

theorem resolvedTags_mem (acct : Nat) (tags : List Tag) (tree : List TagTreeNode) :
    ∀ pid, ∀ t ∈ resolvedTags acct tags pid tree, t ∈ tags ∧ t.accountId = acct := by
  induction tree using forest_induction with
  | hnil =>
    intro pid t ht
    unfold resolvedTags at ht
    cases ht
  | hcons name children rest ihc ihr =>
    intro pid t ht
    unfold resolvedTags at ht
    rcases hf : findTag tags name pid acct with _ | u
    · rw [hf] at ht
      cases ht
    · rw [hf] at ht
      dsimp only at ht
      rcases List.mem_append.mp ht with h1 | h2
      · rcases List.mem_append.mp h1 with h1a | h1b
        · exact ihc u.id t h1a
        · rw [List.mem_singleton.mp h1b]
          have hspec := findTag_some_spec tags name pid acct u hf
          exact ⟨hspec.1, hspec.2.2.2⟩
      · exact ihr pid t h2

theorem sat_resolved_rel (acct nid : Nat) (tags : List Tag) (rels : List (Nat × Nat))
    (tree : List TagTreeNode) :
    ∀ pid, satForest acct nid tags rels pid tree = true →
      ∀ t ∈ resolvedTags acct tags pid tree, (t.id, nid) ∈ rels := by
  induction tree using forest_induction with
  | hnil =>
    intro pid _ t ht
    unfold resolvedTags at ht
    cases ht
  | hcons name children rest ihc ihr =>
    intro pid hsat t ht
    unfold satForest at hsat
    unfold resolvedTags at ht
    rcases hf : findTag tags name pid acct with _ | u
    · rw [hf] at hsat
      cases hsat
    · rw [hf] at hsat ht
      dsimp only at hsat ht
      rw [Bool.and_eq_true, Bool.and_eq_true, decide_eq_true_eq] at hsat
      rcases List.mem_append.mp ht with h1 | h2
      · rcases List.mem_append.mp h1 with h1a | h1b
        · exact ihc u.id hsat.1.2 t h1a
        · rw [List.mem_singleton.mp h1b]
          exact hsat.1.1
      · exact ihr pid hsat.2 t h2

theorem sat_transfer (acct nid : Nat) (tags tags2 : List Tag)
    (rels rels2 : List (Nat × Nat)) (tree : List TagTreeNode)
    (huniq : ∀ t1 ∈ tags2, ∀ t2 ∈ tags2, t1.name = t2.name → t1.parent = t2.parent →
      t1.accountId = t2.accountId → t1 = t2) :
    ∀ pid, satForest acct nid tags rels pid tree = true →
      (∀ t ∈ resolvedTags acct tags pid tree, t ∈ tags2) →
      (∀ t ∈ resolvedTags acct tags pid tree, (t.id, nid) ∈ rels2) →
      satForest acct nid tags2 rels2 pid tree = true ∧
      resolvedTags acct tags2 pid tree = resolvedTags acct tags pid tree := by
  induction tree using forest_induction with
  | hnil =>
    intro pid _ _ _
    unfold satForest resolvedTags
    exact ⟨rfl, rfl⟩
  | hcons name children rest ihc ihr =>
    intro pid hsat h1 h2
    unfold satForest at hsat
    rcases hf : findTag tags name pid acct with _ | u
    · rw [hf] at hsat
      cases hsat
    · rw [hf] at hsat
      dsimp only at hsat
      rw [Bool.and_eq_true, Bool.and_eq_true, decide_eq_true_eq] at hsat
      have hresu : ∀ t, t ∈ resolvedTags acct tags pid
          (TagTreeNode.node name children :: rest) ↔
          t ∈ resolvedTags acct tags u.id children ∨ t = u ∨
          t ∈ resolvedTags acct tags pid rest := by
        intro t
        conv_lhs => rw [resolvedTags]
        rw [hf]
        simp [List.mem_append, or_assoc]
      have hspec := findTag_some_spec tags name pid acct u hf
      have humem : u ∈ tags2 := h1 u ((hresu u).mpr (Or.inr (Or.inl rfl)))
      have hfd2 : findTag tags2 name pid acct = some u := by
        have := findTag_uniq tags2 u huniq humem
        rw [hspec.2.1, hspec.2.2.1, hspec.2.2.2] at this
        exact this
      have hch := ihc u.id hsat.1.2
        (fun t ht => h1 t ((hresu t).mpr (Or.inl ht)))
        (fun t ht => h2 t ((hresu t).mpr (Or.inl ht)))
      have hrst := ihr pid hsat.2
        (fun t ht => h1 t ((hresu t).mpr (Or.inr (Or.inr ht))))
        (fun t ht => h2 t ((hresu t).mpr (Or.inr (Or.inr ht))))
      constructor
      · unfold satForest
        rw [hfd2]
        dsimp only
        rw [Bool.and_eq_true, Bool.and_eq_true, decide_eq_true_eq]
        exact ⟨⟨h2 u ((hresu u).mpr (Or.inr (Or.inl rfl))), hch.1⟩, hrst.1⟩
      · conv_lhs => rw [resolvedTags]
        conv_rhs => rw [resolvedTags]
        rw [hfd2, hf]
        dsimp only
        rw [hch.2, hrst.2]

end Blinko

namespace Blinko

theorem handleAddTags_noop (acct nid : Nat) (tree : List TagTreeNode) :
    ∀ (pt : Option Tag) (db : DB) (acc : List Tag),
      satForest acct nid db.tags db.tagsToNote (pidOf pt) tree = true →
      handleAddTags acct (some nid) tree pt db acc =
        (db, acc ++ resolvedTags acct db.tags (pidOf pt) tree) := by
  induction tree using forest_induction with
  | hnil =>
    intro pt db acc _
    unfold handleAddTags resolvedTags
    simp
  | hcons name children rest ihc ihr =>
    intro pt db acc hsat
    unfold satForest at hsat
    rcases hf : findTag db.tags name (pidOf pt) acct with _ | u
    · rw [hf] at hsat
      cases hsat
    · rw [hf] at hsat
      dsimp only at hsat
      rw [Bool.and_eq_true, Bool.and_eq_true, decide_eq_true_eq] at hsat
      have hfc : findOrCreate acct name (pidOf pt) db = (u, db) := by
        unfold findOrCreate
        rw [hf]
      have hens : ensureRel (some nid) u.id db = db := by
        unfold ensureRel
        dsimp only
        rw [if_pos hsat.1.1]
      unfold handleAddTags
      dsimp only
      rw [hfc]
      dsimp only
      rw [hens]
      have hchsat : satForest acct nid db.tags db.tagsToNote (pidOf (some u)) children
          = true := hsat.1.2
      rw [ihc (some u) db acc hchsat]
      dsimp only
      rw [ihr pt db (acc ++ resolvedTags acct db.tags (pidOf (some u)) children ++ [u]) hsat.2]
      conv_rhs => rw [resolvedTags]
      rw [hf]
      dsimp only
      rw [show pidOf (some u) = u.id from rfl]
      simp [List.append_assoc]

end Blinko

namespace Blinko

theorem handleAddTags_master (acct nid : Nat) (tree : List TagTreeNode) :
    ∀ (pt : Option Tag) (db : DB) (acc : List Tag),
      TagsWf db → dbDelimFree db → (∀ n ∈ forestNames tree, hasDelim n = false) →
      TagsWf (handleAddTags acct (some nid) tree pt db acc).1 ∧
      dbDelimFree (handleAddTags acct (some nid) tree pt db acc).1 ∧
      (∃ adds, (handleAddTags acct (some nid) tree pt db acc).1.tagsToNote
          = db.tagsToNote ++ adds ∧
        ∀ p ∈ adds, p.2 = nid ∧ ∃ t ∈ resolvedTags acct
          (handleAddTags acct (some nid) tree pt db acc).1.tags (pidOf pt) tree,
          t.id = p.1) ∧
      satForest acct nid (handleAddTags acct (some nid) tree pt db acc).1.tags
        (handleAddTags acct (some nid) tree pt db acc).1.tagsToNote (pidOf pt) tree
        = true ∧
      (handleAddTags acct (some nid) tree pt db acc).2 =
        acc ++ resolvedTags acct (handleAddTags acct (some nid) tree pt db acc).1.tags
          (pidOf pt) tree := by
  induction tree using forest_induction with
  | hnil =>
    intro pt db acc hwf hdf _
    unfold handleAddTags
    dsimp only
    unfold satForest resolvedTags
    exact ⟨hwf, hdf, ⟨[], by simp, fun p hp => absurd hp (List.not_mem_nil p)⟩, rfl, by simp⟩
  | hcons name children rest ihc ihr =>
    intro pt db acc hwf hdf htree
    have hname : hasDelim name = false := by
      apply htree
      rw [forestNames]
      exact List.mem_cons_self _ _
    have hchn : ∀ n ∈ forestNames children, hasDelim n = false := by
      intro n hn
      apply htree
      rw [forestNames]
      exact List.mem_cons_of_mem _ (List.mem_append_left _ hn)
    have hrestn : ∀ n ∈ forestNames rest, hasDelim n = false := by
      intro n hn
      apply htree
      rw [forestNames]
      exact List.mem_cons_of_mem _ (List.mem_append_right _ hn)
    unfold handleAddTags
    dsimp only
    generalize hF : findOrCreate acct name (pidOf pt) db = F
    have hspecF := findOrCreate_spec acct name (pidOf pt) db hwf
    rw [hF] at hspecF
    obtain ⟨wfF, ⟨ext0, hext0⟩, hmemF, hnmF, hprF, hacF⟩ := hspecF
    have hdfF := findOrCreate_df acct name (pidOf pt) db hdf hname
    rw [hF] at hdfF
    have hFrels : F.2.tagsToNote = db.tagsToNote := by
      have h5 := findOrCreate_tagsToNote acct name (pidOf pt) db
      rw [hF] at h5
      exact h5
    generalize hE : ensureRel (some nid) F.1.id F.2 = E
    have hEtags : E.tags = F.2.tags := by
      have h5 := ensureRel_tags (some nid) F.1.id F.2
      rw [hE] at h5
      exact h5
    have hEnext : E.nextTagId = F.2.nextTagId := by
      have h5 := ensureRel_nextTagId (some nid) F.1.id F.2
      rw [hE] at h5
      exact h5
    have hens := ensureRel_spec nid F.1.id F.2
    rw [hE] at hens
    obtain ⟨⟨adds0, hadds0, hadds0p⟩, hrelE⟩ := hens
    have wfE : TagsWf E := tagsWf_congr F.2 E hEtags hEnext wfF
    have dfE : dbDelimFree E := dbDelimFree_congr F.2 E hEtags hdfF
    generalize hR : handleAddTags acct (some nid) children (some F.1) E acc = R1
    have IH1 := ihc (some F.1) E acc wfE dfE hchn
    rw [hR] at IH1
    have hpid : pidOf (some F.1) = F.1.id := rfl
    rw [hpid] at IH1
    obtain ⟨wf1, df1, ⟨adds1, hadds1, hadds1p⟩, hsat1, hres1⟩ := IH1
    have hext1 := handleAddTags_tags_append acct (some nid) children (some F.1) E acc
    rw [hR] at hext1
    obtain ⟨e1, he1⟩ := hext1
    generalize hFIN : handleAddTags acct (some nid) rest pt R1.1 (R1.2 ++ [F.1]) = FIN
    have IH2 := ihr pt R1.1 (R1.2 ++ [F.1]) wf1 df1 hrestn
    rw [hFIN] at IH2
    obtain ⟨wf2, df2, ⟨adds2, hadds2, hadds2p⟩, hsat2, hres2⟩ := IH2
    have hext2 := handleAddTags_tags_append acct (some nid) rest pt R1.1 (R1.2 ++ [F.1])
    rw [hFIN] at hext2
    obtain ⟨e2, he2⟩ := hext2
    have hmemFIN : F.1 ∈ FIN.1.tags := by
      rw [he2, he1, hEtags]
      exact List.mem_append_left _ (List.mem_append_left _ hmemF)
    have hfindFIN : findTag FIN.1.tags name (pidOf pt) acct = some F.1 := by
      have h4 := findTag_uniq FIN.1.tags F.1 wf2.uniq hmemFIN
      rw [hnmF, hprF, hacF] at h4
      exact h4
    have h1t : ∀ t ∈ resolvedTags acct R1.1.tags F.1.id children, t ∈ FIN.1.tags := by
      intro t ht
      have hm := (resolvedTags_mem acct R1.1.tags children F.1.id t ht).1
      rw [he2]
      exact List.mem_append_left _ hm
    have h2t : ∀ t ∈ resolvedTags acct R1.1.tags F.1.id children,
        (t.id, nid) ∈ FIN.1.tagsToNote := by
      intro t ht
      have hrel := sat_resolved_rel acct nid R1.1.tags R1.1.tagsToNote children
        F.1.id hsat1 t ht
      rw [hadds2]
      exact List.mem_append_left _ hrel
    have htrans := sat_transfer acct nid R1.1.tags FIN.1.tags R1.1.tagsToNote
      FIN.1.tagsToNote children wf2.uniq F.1.id hsat1 h1t h2t
    have hRdec : resolvedTags acct FIN.1.tags (pidOf pt)
        (TagTreeNode.node name children :: rest)
        = resolvedTags acct FIN.1.tags F.1.id children ++ [F.1]
          ++ resolvedTags acct FIN.1.tags (pidOf pt) rest := by
      conv_lhs => rw [resolvedTags]
      rw [hfindFIN]
    have hrelFIN : (F.1.id, nid) ∈ FIN.1.tagsToNote := by
      rw [hadds2, hadds1]
      exact List.mem_append_left _ (List.mem_append_left _ hrelE)
    have hFmemR : F.1 ∈ resolvedTags acct FIN.1.tags (pidOf pt)
        (TagTreeNode.node name children :: rest) := by
      rw [hRdec]
      exact List.mem_append_left _ (List.mem_append_right _ (List.mem_singleton_self _))
    refine ⟨wf2, df2, ?_, ?_, ?_⟩
    · refine ⟨adds0 ++ (adds1 ++ adds2), ?_, ?_⟩
      · rw [hadds2, hadds1, hadds0, hFrels]
        simp [List.append_assoc]
      · intro p hp
        rcases List.mem_append.mp hp with hp0 | hp12
        · refine ⟨(hadds0p p hp0).1, F.1, hFmemR, ?_⟩
          rw [(hadds0p p hp0).2]
        · rcases List.mem_append.mp hp12 with hp1 | hp2
          · obtain ⟨hpnid, t, htmem, htid⟩ := hadds1p p hp1
            refine ⟨hpnid, t, ?_, htid⟩
            rw [hRdec]
            apply List.mem_append_left
            apply List.mem_append_left
            rw [htrans.2]
            exact htmem
          · obtain ⟨hpnid, t, htmem, htid⟩ := hadds2p p hp2
            refine ⟨hpnid, t, ?_, htid⟩
            rw [hRdec]
            exact List.mem_append_right _ htmem
    · conv_lhs => rw [satForest]
      rw [hfindFIN]
      dsimp only
      rw [Bool.and_eq_true, Bool.and_eq_true, decide_eq_true_eq]
      exact ⟨⟨hrelFIN, htrans.1⟩, hsat2⟩
    · rw [hres2, hres1, hRdec, ← htrans.2]
      simp [List.append_assoc]

end Blinko

namespace Blinko

theorem tag_id_inj (tags : List Tag) (h : (tags.map Tag.id).Nodup) :
    ∀ t1 ∈ tags, ∀ t2 ∈ tags, t1.id = t2.id → t1 = t2 := by
  intro t1 h1 t2 h2 he
  have ha := find?_id_of_nodup tags t1 h h1
  have hb := find?_id_of_nodup tags t2 h h2
  rw [he] at ha
  exact Option.some_inj.mp (ha.symm.trans hb)

theorem parsedLookup_mem (nt : List Tag) (k : List Char) (t : Tag)
    (h : parsedLookup nt k = some t) : t ∈ nt := by
  unfold parsedLookup at h
  rcases hs : splitAtDelim k with _ | pq
  · rw [hs] at h
    cases h
  · rw [hs] at h
    dsimp only at h
    rcases hc : charsToNat? (firstPart pq.2) with _ | p
    · rw [hc] at h
      cases h
    · rw [hc] at h
      exact List.mem_of_find?_eq_some h

theorem addRelStep_rels (nid : Nat) (nt : List Tag) (k : List Char) (db : DB) :
    ∃ adds, (addRelStep nid nt k db).tagsToNote = db.tagsToNote ++ adds ∧
      ∀ p ∈ adds, p.2 = nid ∧ ∃ t ∈ nt, t.id = p.1 := by
  unfold addRelStep
  rcases hp : parsedLookup nt k with _ | t
  · exact ⟨[], by simp, fun p hp2 => absurd hp2 (List.not_mem_nil p)⟩
  · dsimp only
    by_cases h0 : t.id = 0
    · rw [if_pos h0]
      exact ⟨[], by simp, fun p hp2 => absurd hp2 (List.not_mem_nil p)⟩
    · rw [if_neg h0]
      by_cases hm : (t.id, nid) ∈ db.tagsToNote
      · rw [if_pos hm]
        exact ⟨[], by simp, fun p hp2 => absurd hp2 (List.not_mem_nil p)⟩
      · rw [if_neg hm]
        refine ⟨[(t.id, nid)], rfl, ?_⟩
        intro p hp2
        rw [List.mem_singleton.mp hp2]
        exact ⟨rfl, t, parsedLookup_mem nt k t hp, rfl⟩

theorem addRelLoop_rels (nid : Nat) (nt : List Tag) (ks : List (List Char)) :
    ∀ db : DB, ∃ adds, (addRelLoop nid nt ks db).tagsToNote = db.tagsToNote ++ adds ∧
      ∀ p ∈ adds, p.2 = nid ∧ ∃ t ∈ nt, t.id = p.1 := by
  induction ks with
  | nil =>
    intro db
    exact ⟨[], by unfold addRelLoop; simp, fun p hp => absurd hp (List.not_mem_nil p)⟩
  | cons k ks ih =>
    intro db
    unfold addRelLoop
    obtain ⟨adds1, ha1, hp1⟩ := addRelStep_rels nid nt k db
    obtain ⟨adds2, ha2, hp2⟩ := ih (addRelStep nid nt k db)
    refine ⟨adds1 ++ adds2, ?_, ?_⟩
    · rw [ha2, ha1]
      simp [List.append_assoc]
    · intro p hp
      rcases List.mem_append.mp hp with h1 | h2
      · exact hp1 p h1
      · exact hp2 p h2

theorem delRelIds_some_of (oldTags : List Tag) (needDel : List (List Char))
    (h : ∀ k ∈ needDel, (parsedLookup oldTags k).isSome = true) :
    ∃ ids, delRelIds oldTags needDel = some ids := by
  unfold delRelIds
  dsimp only
  rw [if_pos]
  · exact ⟨_, rfl⟩
  · rw [List.all_eq_true]
    intro o ho
    rcases List.mem_map.mp ho with ⟨k, hk, rfl⟩
    have := h k hk
    rcases hpk : parsedLookup oldTags k with _ | t
    · rw [hpk] at this
      cases this
    · simp

theorem delRelIds_inv (oldTags : List Tag) (needDel : List (List Char)) (ids : List Nat)
    (h : delRelIds oldTags needDel = some ids) (i : Nat) :
    i ∈ ids ↔ (i ≠ 0 ∧ ∃ k ∈ needDel, ∃ t, parsedLookup oldTags k = some t ∧ t.id = i) := by
  unfold delRelIds at h
  dsimp only at h
  split at h
  · rw [Option.some_inj] at h
    rw [← h]
    simp only [List.mem_filter, decide_eq_true_eq]
    rw [List.reduceOption_mem_iff]
    simp only [List.mem_map]
    constructor
    · rintro ⟨⟨k, hk, hmap⟩, hne⟩
      rcases Option.map_eq_some'.mp hmap with ⟨t, hpt, hti⟩
      exact ⟨hne, k, hk, t, hpt, hti⟩
    · rintro ⟨hne, k, hk, t, hpt, hti⟩
      exact ⟨⟨k, hk, by rw [hpt]; simp [hti]⟩, hne⟩
  · exact Option.noConfusion h

end Blinko

namespace Blinko

theorem upsertSync_notes (acct : Nat) (tree : List TagTreeNode) (refs : List Nat)
    (atts : List (List Char × List Char × Nat)) (nid : Nat) (db : DB) :
    (upsertSync acct tree refs atts nid db).2.notes = db.notes := by
  unfold upsertSync
  dsimp only
  set dres := delRelIds (joinedTags db nid)
    (List.filter (fun k => decide (k ∉ List.map (fun t => keyOf t.name t.parent)
        (handleAddTags acct (some nid) tree none db []).2))
      (List.map (fun t => keyOf t.name t.parent) (joinedTags db nid))) with hd
  rcases dres with _ | delIds
  · dsimp only
    rw [handleAddTags_notes]
  · dsimp only
    simp only [attachPhase_notes, addRelLoop_notes, handleAddTags_notes]

theorem applyFlags_idem (inp : UpsertInput) (n : Note) :
    applyFlags inp (applyFlags inp n) = applyFlags inp n := by
  unfold applyFlags
  rcases inp with ⟨c, ty, atts, idf, ia, it, ish, ir, refs⟩
  dsimp only
  cases c <;> cases ia <;> cases it <;> cases ish <;> cases ir <;>
    by_cases h : ty ≠ -1 <;> simp [h]

end Blinko

namespace Blinko

theorem addAttRows_atts_append (nid : Nat) (atts : List (List Char × List Char × Nat)) :
    ∀ db : DB, ∃ rows, (addAttRows nid atts db).attachments = db.attachments ++ rows := by
  induction atts with
  | nil =>
    intro db
    exact ⟨[], by unfold addAttRows; simp⟩
  | cons a rest ih =>
    intro db
    unfold addAttRows
    obtain ⟨rows, hr⟩ := ih { db with
      attachments := db.attachments ++ [⟨db.nextAttId, nid, a.1, a.2.1, a.2.2⟩],
      nextAttId := db.nextAttId + 1 }
    refine ⟨⟨db.nextAttId, nid, a.1, a.2.1, a.2.2⟩ :: rows, ?_⟩
    rw [hr]
    simp

theorem addAttRows_paths (nid : Nat) (atts : List (List Char × List Char × Nat)) :
    ∀ db : DB, ∀ a ∈ atts, a.2.1 ∈
      ((addAttRows nid atts db).attachments.filter
        (fun r => decide (r.noteId = nid))).map Attachment.path := by
  induction atts with
  | nil =>
    intro db a ha
    cases ha
  | cons b rest ih =>
    intro db a ha
    unfold addAttRows
    rcases List.mem_cons.mp ha with rfl | hm
    · obtain ⟨rows, hr⟩ := addAttRows_atts_append nid rest { db with
        attachments := db.attachments ++ [⟨db.nextAttId, nid, a.1, a.2.1, a.2.2⟩],
        nextAttId := db.nextAttId + 1 }
      rw [hr]
      apply List.mem_map.mpr
      refine ⟨⟨db.nextAttId, nid, a.1, a.2.1, a.2.2⟩, ?_, rfl⟩
      apply List.mem_filter.mpr
      refine ⟨?_, by simp⟩
      dsimp only
      apply List.mem_append_left
      apply List.mem_append_right
      simp
    · exact ih _ a hm

theorem attachPhase_paths (nid : Nat) (atts : List (List Char × List Char × Nat)) (db : DB) :
    ∀ a ∈ atts, a.2.1 ∈
      ((attachPhase nid atts db).attachments.filter
        (fun r => decide (r.noteId = nid))).map Attachment.path := by
  intro a ha
  unfold attachPhase
  dsimp only
  generalize hAP : List.filter (fun p => decide (p ∉ (db.attachments.filter
      (fun r => decide (r.noteId = nid))).map Attachment.path))
      (atts.map (fun a => a.2.1)) = AP
  by_cases hin : a.2.1 ∈ (db.attachments.filter
      (fun r => decide (r.noteId = nid))).map Attachment.path
  · obtain ⟨rows, hr⟩ := addAttRows_atts_append nid
      (atts.filter (fun x => decide (x.2.1 ∈ AP))) db
    rw [hr, List.filter_append, List.map_append]
    exact List.mem_append_left _ hin
  · apply addAttRows_paths
    apply List.mem_filter.mpr
    refine ⟨ha, ?_⟩
    simp only [decide_eq_true_eq]
    rw [← hAP]
    apply List.mem_filter.mpr
    refine ⟨List.mem_map_of_mem _ ha, ?_⟩
    simp only [decide_eq_true_eq]
    exact hin

end Blinko

namespace Blinko

theorem upsertSync_stable (acct nid : Nat) (tree : List TagTreeNode) (refs : List Nat)
    (atts : List (List Char × List Char × Nat)) (db : DB)
    (hg : SyncGood acct nid tree refs atts db) :
    upsertSync acct tree refs atts nid db = (true, db) := by
  have hnoop := handleAddTags_noop acct nid tree none db [] hg.sat
  have hAtt : attachPhase nid atts db = db := by
    unfold attachPhase
    dsimp only
    have hAP : (atts.map (fun a => a.2.1)).filter
        (fun p => decide (p ∉ (db.attachments.filter
          (fun r => decide (r.noteId = nid))).map Attachment.path)) = [] := by
      rw [List.filter_eq_nil_iff]
      intro p hp
      rcases List.mem_map.mp hp with ⟨a, ham, rfl⟩
      simp only [decide_eq_true_eq, not_not]
      exact hg.paths a ham
    rw [hAP]
    have h2 : atts.filter (fun a => decide (a.2.1 ∈ ([] : List (List Char)))) = [] := by
      rw [List.filter_eq_nil_iff]
      intro a _
      simp
    rw [h2]
    unfold addAttRows
    rfl
  unfold upsertSync
  dsimp only
  rw [hnoop]
  dsimp only [pidOf]
  rw [List.nil_append]
  have hDel : (List.map (fun t => keyOf t.name t.parent) (joinedTags db nid)).filter
      (fun k => decide (k ∉ List.map (fun t => keyOf t.name t.parent)
        (resolvedTags acct db.tags 0 tree))) = [] := by
    rw [List.filter_eq_nil_iff]
    intro k hk
    rcases List.mem_map.mp hk with ⟨t, htm, rfl⟩
    simp only [decide_eq_true_eq, not_not]
    exact List.mem_map_of_mem _ (hg.joined t htm)
  have hRmem : ∀ t ∈ resolvedTags acct db.tags 0 tree, t ∈ joinedTags db nid := by
    intro t ht
    exact mem_joinedTags_of db nid t hg.wf.nodup
      (resolvedTags_mem acct db.tags tree 0 t ht).1
      (sat_resolved_rel acct nid db.tags db.tagsToNote tree 0 hg.sat t ht)
  have hAdd : (List.map (fun t => keyOf t.name t.parent)
      (resolvedTags acct db.tags 0 tree)).filter
      (fun k => decide (k ∉ List.map (fun t => keyOf t.name t.parent)
        (joinedTags db nid))) = [] := by
    rw [List.filter_eq_nil_iff]
    intro k hk
    rcases List.mem_map.mp hk with ⟨t, htm, rfl⟩
    simp only [decide_eq_true_eq, not_not]
    exact List.mem_map_of_mem _ (hRmem t htm)
  rw [hDel, hAdd]
  rw [show delRelIds (joinedTags db nid) [] = some [] from rfl]
  dsimp only
  have hkeep : db.tagsToNote.filter
      (fun r => decide (¬ (r.2 = nid ∧ r.1 ∈ ([] : List Nat)))) = db.tagsToNote := by
    rw [List.filter_eq_self]
    intro r _
    simp
  rw [hkeep]
  simp only [addRelLoop]
  have hRA : refs.filter (fun i => decide (i ∉ outRefIds db nid)) = [] := by
    rw [List.filter_eq_nil_iff]
    intro i hi
    simp only [decide_eq_true_eq, not_not]
    exact (hg.refsEq i).mpr hi
  have hRD : (outRefIds db nid).filter (fun i => decide (i ∉ refs)) = [] := by
    rw [List.filter_eq_nil_iff]
    intro i hi
    simp only [decide_eq_true_eq, not_not]
    exact (hg.refsEq i).mp hi
  rw [hRA, hRD]
  simp only [List.map_nil, List.append_nil]
  have hkeep2 : db.noteRefs.filter
      (fun r => decide (¬ (r.1 = nid ∧ r.2 ∈ ([] : List Nat)))) = db.noteRefs := by
    rw [List.filter_eq_self]
    intro r _
    simp
  rw [hkeep2]
  have hDT : ((joinedTags db nid).map Tag.id).filter
      (fun i => decide (i ∉ ((db.tagsToNote.filter
        (fun r => decide (r.1 ∈ (joinedTags db nid).map Tag.id))).map
          Prod.fst).filter (fun i => decide (i ≠ 0)))) = [] := by
    rw [List.filter_eq_nil_iff]
    intro i hi
    rcases List.mem_map.mp hi with ⟨t, htm, rfl⟩
    simp only [decide_eq_true_eq, not_not]
    have htR := hg.joined t htm
    have hrel : (t.id, nid) ∈ db.tagsToNote :=
      sat_resolved_rel acct nid db.tags db.tagsToNote tree 0 hg.sat t htR
    apply List.mem_filter.mpr
    constructor
    · apply List.mem_map.mpr
      refine ⟨(t.id, nid), ?_, rfl⟩
      apply List.mem_filter.mpr
      refine ⟨hrel, ?_⟩
      simp only [decide_eq_true_eq]
      exact List.mem_map_of_mem _ htm
    · simp only [decide_eq_true_eq]
      have := hg.wf.pos t (resolvedTags_mem acct db.tags tree 0 t htR).1
      omega
  simp only [hDT]
  have hkeep3 : db.tags.filter
      (fun t => decide (¬ (t.id ∈ ([] : List Nat) ∧ t.accountId = acct))) = db.tags := by
    rw [List.filter_eq_self]
    intro t _
    simp
  simp only [hkeep3]
  rw [show (⟨db.notes, db.tags, db.tagsToNote, db.noteRefs, db.attachments,
    db.nextTagId, db.nextNoteId, db.nextAttId⟩ : DB) = db from rfl]
  rw [hAtt]

end Blinko

namespace Blinko

theorem addRelLoop_rels_mono (nid : Nat) (nt : List Tag) (ks : List (List Char)) (db : DB)
    (p : Nat × Nat) (h : p ∈ db.tagsToNote) : p ∈ (addRelLoop nid nt ks db).tagsToNote := by
  obtain ⟨adds, ha, _⟩ := addRelLoop_rels nid nt ks db
  rw [ha]
  exact List.mem_append_left _ h

theorem addRelLoop_rels_inv (nid : Nat) (nt : List Tag) (ks : List (List Char)) (db : DB)
    (p : Nat × Nat) (h : p ∈ (addRelLoop nid nt ks db).tagsToNote) :
    p ∈ db.tagsToNote ∨ (p.2 = nid ∧ ∃ t ∈ nt, t.id = p.1) := by
  obtain ⟨adds, ha, hp⟩ := addRelLoop_rels nid nt ks db
  rw [ha] at h
  rcases List.mem_append.mp h with h1 | h2
  · exact Or.inl h1
  · exact Or.inr (hp p h2)

theorem parsedLookup_joined (acct nid : Nat) (db : DB) (hwf : TagsWf db)
    (hdf : dbDelimFree db) (hacct : ∀ t ∈ joinedTags db nid, t.accountId = acct) (t0 : Tag)
    (h0 : t0 ∈ joinedTags db nid) :
    parsedLookup (joinedTags db nid) (keyOf t0.name t0.parent) = some t0 := by
  rw [parsedLookup_keyOf _ _ _ (hdf t0 (joined_mem_spec db nid t0 h0).1)]
  rcases hfind : (joinedTags db nid).find?
      (fun t => decide (t.name = t0.name ∧ t.parent = t0.parent)) with _ | t4
  · exfalso
    have hnone := List.find?_eq_none.mp hfind t0 h0
    simp at hnone
  · have ht4 := List.mem_of_find?_eq_some hfind
    have hp4 := List.find?_some hfind
    simp only [decide_eq_true_eq] at hp4
    have ht40 : t4 = t0 := hwf.uniq t4 (joined_mem_spec db nid t4 ht4).1 t0
      (joined_mem_spec db nid t0 h0).1 hp4.1 hp4.2 (by rw [hacct t4 ht4, hacct t0 h0])
    rw [hfind, ht40]

theorem joinedTags_attachPhase (nid : Nat) (atts : List (List Char × List Char × Nat))
    (db : DB) (m : Nat) : joinedTags (attachPhase nid atts db) m = joinedTags db m := by
  unfold joinedTags
  rw [attachPhase_tagsToNote, attachPhase_tags]

end Blinko

namespace Blinko

theorem outRefIds_attachPhase (nid : Nat) (atts : List (List Char × List Char × Nat))
    (db : DB) (m : Nat) : outRefIds (attachPhase nid atts db) m = outRefIds db m := by
  unfold outRefIds
  rw [attachPhase_noteRefs]

theorem syncGood_assemble (acct nid : Nat) (tree : List TagTreeNode) (refs : List Nat)
    (atts : List (List Char × List Char × Nat)) (db B D6 : DB) (delIds : List Nat)
    (wf1 : TagsWf B) (df1 : dbDelimFree B)
    (hsat1 : satForest acct nid B.tags B.tagsToNote 0 tree = true)
    (haddsE : ∃ adds, B.tagsToNote = db.tagsToNote ++ adds ∧ ∀ p ∈ adds, p.2 = nid ∧
      ∃ t ∈ resolvedTags acct B.tags 0 tree, t.id = p.1)
    (hextE : ∃ ext, B.tags = db.tags ++ ext)
    (hrels : ∀ r ∈ db.tagsToNote, r.2 = nid →
      ∃ t ∈ db.tags, t.id = r.1 ∧ t.accountId = acct)
    (hRnotdel : ∀ t ∈ resolvedTags acct B.tags 0 tree, t.id ∉ delIds)
    (hforce : ∀ t0, t0 ∈ db.tags → t0.accountId = acct → (t0.id, nid) ∈ db.tagsToNote →
      t0.id ∉ delIds → t0 ∈ resolvedTags acct B.tags 0 tree)
    (hT3 : D6.tags.Sublist B.tags)
    (hT1 : ∀ t ∈ D6.tags, t ∈ B.tags)
    (hT2 : ∀ t ∈ B.tags, t.id ≠ 0 → (t.id, nid) ∈ D6.tagsToNote → t ∈ D6.tags)
    (hN : D6.nextTagId = B.nextTagId)
    (hA1 : ∀ i : Nat, (i, nid) ∈ B.tagsToNote → i ∉ delIds → (i, nid) ∈ D6.tagsToNote)
    (hA2 : ∀ p ∈ D6.tagsToNote, p.2 = nid →
      (p ∈ B.tagsToNote ∧ p.1 ∉ delIds) ∨
      ∃ t ∈ resolvedTags acct B.tags 0 tree, t.id = p.1)
    (hre : ∀ x, x ∈ outRefIds D6 nid ↔ x ∈ refs) :
    SyncGood acct nid tree refs atts (attachPhase nid atts D6) := by
  obtain ⟨adds, hadds, haddsp⟩ := haddsE
  obtain ⟨ext, hext⟩ := hextE
  have wfD6 : TagsWf D6 := by
    constructor
    · exact List.Sublist.nodup (List.Sublist.map Tag.id hT3) wf1.nodup
    · intro t ht
      exact wf1.pos t (hT1 t ht)
    · intro t ht
      rw [hN]
      exact wf1.fresh t (hT1 t ht)
    · rw [hN]
      exact wf1.posCounter
    · intro t1 h1 t2 h2
      exact wf1.uniq t1 (hT1 t1 h1) t2 (hT1 t2 h2)
  have dfD6 : dbDelimFree D6 := fun t ht => df1 t (hT1 t ht)
  have hsurv : ∀ t ∈ resolvedTags acct B.tags 0 tree,
      t ∈ D6.tags ∧ (t.id, nid) ∈ D6.tagsToNote := by
    intro t ht
    have htH := (resolvedTags_mem acct B.tags tree 0 t ht).1
    have hrelH : (t.id, nid) ∈ B.tagsToNote :=
      sat_resolved_rel acct nid B.tags B.tagsToNote tree 0 hsat1 t ht
    have hne : t.id ≠ 0 := by have := wf1.pos t htH; omega
    have hrelD : (t.id, nid) ∈ D6.tagsToNote := hA1 t.id hrelH (hRnotdel t ht)
    exact ⟨hT2 t htH hne hrelD, hrelD⟩
  have htransD := sat_transfer acct nid B.tags D6.tags B.tagsToNote D6.tagsToNote tree
    wfD6.uniq 0 hsat1 (fun t ht => (hsurv t ht).1) (fun t ht => (hsurv t ht).2)
  have hjoinD : ∀ t ∈ joinedTags D6 nid, t ∈ resolvedTags acct D6.tags 0 tree := by
    intro t ht
    obtain ⟨htD, hrelD⟩ := joined_mem_spec D6 nid t ht
    have htH : t ∈ B.tags := hT1 t htD
    rw [htransD.2]
    rcases hA2 (t.id, nid) hrelD rfl with ⟨hrelH, hnot⟩ | ⟨t5, ht5, hid5⟩
    · rw [hadds] at hrelH
      rcases List.mem_append.mp hrelH with hdb | hadds2
      · obtain ⟨t0, ht0, hid0, hac0⟩ := hrels (t.id, nid) hdb rfl
        have ht0R := hforce t0 ht0 hac0 (by rw [hid0]; exact hdb) (by rw [hid0]; exact hnot)
        have ht0H : t0 ∈ B.tags := by
          rw [hext]
          exact List.mem_append_left _ ht0
        have he : t0 = t := tag_id_inj B.tags wf1.nodup t0 ht0H t htH hid0
        rw [← he]
        exact ht0R
      · obtain ⟨-, t5, ht5, hid5⟩ := haddsp (t.id, nid) hadds2
        have ht5H : t5 ∈ B.tags := (resolvedTags_mem acct B.tags tree 0 t5 ht5).1
        have he : t5 = t := tag_id_inj B.tags wf1.nodup t5 ht5H t htH hid5
        rw [← he]
        exact ht5
    · have ht5H : t5 ∈ B.tags := (resolvedTags_mem acct B.tags tree 0 t5 ht5).1
      have he : t5 = t := tag_id_inj B.tags wf1.nodup t5 ht5H t htH hid5
      rw [← he]
      exact ht5
  refine ⟨?_, ?_, ?_, ?_, ?_, ?_⟩
  · exact tagsWf_congr D6 _ (by rw [attachPhase_tags]) (by rw [attachPhase_nextTagId]) wfD6
  · exact dbDelimFree_congr D6 _ (by rw [attachPhase_tags]) dfD6
  · rw [attachPhase_tags, attachPhase_tagsToNote]
    exact htransD.1
  · intro t ht
    rw [joinedTags_attachPhase] at ht
    rw [attachPhase_tags]
    exact hjoinD t ht
  · intro x
    rw [outRefIds_attachPhase]
    exact hre x
  · intro a ha
    exact attachPhase_paths nid atts D6 a ha

end Blinko

namespace Blinko

theorem upsertSync_run1 (acct nid : Nat) (tree : List TagTreeNode) (refs : List Nat)
    (atts : List (List Char × List Char × Nat)) (db : DB)
    (hwf : TagsWf db) (hdf : dbDelimFree db) (htf : treeDelimFree tree)
    (hrels : ∀ r ∈ db.tagsToNote, r.2 = nid →
      ∃ t ∈ db.tags, t.id = r.1 ∧ t.accountId = acct) :
    (upsertSync acct tree refs atts nid db).1 = true ∧
    SyncGood acct nid tree refs atts (upsertSync acct tree refs atts nid db).2 := by
  obtain ⟨wf1, df1, ⟨adds, hadds, haddsp0⟩, hsat1p, hres1p⟩ :=
    handleAddTags_master acct nid tree none db [] hwf hdf htf
  have hsat1 : satForest acct nid (handleAddTags acct (some nid) tree none db []).1.tags
      (handleAddTags acct (some nid) tree none db []).1.tagsToNote 0 tree = true := hsat1p
  have hres1 : (handleAddTags acct (some nid) tree none db []).2
      = resolvedTags acct (handleAddTags acct (some nid) tree none db []).1.tags 0 tree := by
    have h := hres1p
    rw [List.nil_append] at h
    exact h
  have haddsp : ∀ p ∈ adds, p.2 = nid ∧ ∃ t ∈ resolvedTags acct
      (handleAddTags acct (some nid) tree none db []).1.tags 0 tree, t.id = p.1 := haddsp0
  obtain ⟨ext, hext⟩ := handleAddTags_tags_append acct (some nid) tree none db []
  have holdacct : ∀ t ∈ joinedTags db nid, t.accountId = acct := by
    intro t ht
    obtain ⟨htags, hrel⟩ := joined_mem_spec db nid t ht
    obtain ⟨t5, ht5, hid5, hac5⟩ := hrels (t.id, nid) hrel rfl
    have he : t = t5 := tag_id_inj db.tags hwf.nodup t htags t5 ht5 (by rw [hid5])
    rw [he]
    exact hac5
  have hsome : ∀ k ∈ List.filter (fun k => decide (k ∉ List.map
        (fun t => keyOf t.name t.parent) (handleAddTags acct (some nid) tree none db []).2))
      (List.map (fun t => keyOf t.name t.parent) (joinedTags db nid)),
      (parsedLookup (joinedTags db nid) k).isSome = true := by
    intro k hk
    have hk2 := List.mem_of_mem_filter hk
    rcases List.mem_map.mp hk2 with ⟨t3, ht3, hkeq⟩
    rw [← hkeq, parsedLookup_joined acct nid db hwf hdf holdacct t3 ht3]
    rfl
  obtain ⟨delIds, hdel⟩ := delRelIds_some_of (joinedTags db nid) _ hsome
  have hok : (upsertSync acct tree refs atts nid db).1 = true := by
    unfold upsertSync
    dsimp only
    rw [hdel]
  have hRnotdel : ∀ t ∈ resolvedTags acct
      (handleAddTags acct (some nid) tree none db []).1.tags 0 tree, t.id ∉ delIds := by
    intro t ht hin
    rw [delRelIds_inv _ _ _ hdel t.id] at hin
    obtain ⟨hne, k, hk, t4, hpk, ht4⟩ := hin
    have hkOld := List.mem_of_mem_filter hk
    have hkNew := (List.mem_filter.mp hk).2
    rcases List.mem_map.mp hkOld with ⟨t3, ht3, hkeq⟩
    rw [← hkeq, parsedLookup_joined acct nid db hwf hdf holdacct t3 ht3] at hpk
    have ht34 : t3 = t4 := Option.some_inj.mp hpk
    have ht3db : t3 ∈ db.tags := (joined_mem_spec db nid t3 ht3).1
    have ht3H : t3 ∈ (handleAddTags acct (some nid) tree none db []).1.tags := by
      rw [hext]
      exact List.mem_append_left _ ht3db
    have htH : t ∈ (handleAddTags acct (some nid) tree none db []).1.tags :=
      (resolvedTags_mem acct _ tree 0 t ht).1
    have ht3t : t3 = t := tag_id_inj _ wf1.nodup t3 ht3H t htH (by rw [ht34, ht4])
    simp only [decide_eq_true_eq] at hkNew
    apply hkNew
    rw [← hkeq, ht3t]
    apply List.mem_map_of_mem
    rw [hres1]
    exact ht
  have hforce : ∀ t0, t0 ∈ db.tags → t0.accountId = acct → (t0.id, nid) ∈ db.tagsToNote →
      t0.id ∉ delIds → t0 ∈ resolvedTags acct
        (handleAddTags acct (some nid) tree none db []).1.tags 0 tree := by
    intro t0 h1 h2 h3 h4
    have hj : t0 ∈ joinedTags db nid := mem_joinedTags_of db nid t0 hwf.nodup h1 h3
    by_cases hkN : keyOf t0.name t0.parent ∈ List.map (fun t => keyOf t.name t.parent)
        (handleAddTags acct (some nid) tree none db []).2
    · rcases List.mem_map.mp hkN with ⟨t5, ht5, hk5⟩
      rw [hres1] at ht5
      have h5m := resolvedTags_mem acct _ tree 0 t5 ht5
      have hinj := keyOf_inj t5.name t0.name t5.parent t0.parent (df1 t5 h5m.1)
        (hdf t0 h1) hk5
      have ht0H : t0 ∈ (handleAddTags acct (some nid) tree none db []).1.tags := by
        rw [hext]
        exact List.mem_append_left _ h1
      have h50 : t5 = t0 := wf1.uniq t5 h5m.1 t0 ht0H hinj.1 hinj.2 (by rw [h5m.2, h2])
      rw [← h50]
      exact ht5
    · exfalso
      apply h4
      rw [delRelIds_inv _ _ _ hdel t0.id]
      refine ⟨by have := hwf.pos t0 h1; omega, keyOf t0.name t0.parent, ?_, t0, ?_, rfl⟩
      · apply List.mem_filter.mpr
        refine ⟨List.mem_map_of_mem _ hj, by simpa using hkN⟩
      · exact parsedLookup_joined acct nid db hwf hdf holdacct t0 hj
  refine ⟨hok, ?_⟩
  unfold upsertSync
  dsimp only
  rw [hdel]
  dsimp only
  refine syncGood_assemble acct nid tree refs atts db
    (handleAddTags acct (some nid) tree none db []).1 _ delIds wf1 df1 hsat1
    ⟨adds, hadds, haddsp⟩ ⟨ext, hext⟩ hrels hRnotdel hforce ?_ ?_ ?_ ?_ ?_ ?_ ?_
  · dsimp only
    simp only [addRelLoop_tags]
    exact List.filter_sublist _
  · intro t ht
    dsimp only at ht
    simp only [addRelLoop_tags] at ht
    exact List.mem_of_mem_filter ht
  · intro t ht hne hrel
    dsimp only at hrel ⊢
    apply List.mem_filter.mpr
    constructor
    · simp only [addRelLoop_tags]
      exact ht
    · simp only [decide_eq_true_eq]
      intro hcon
      have hdt := hcon.1
      have h2 := (List.mem_filter.mp hdt).2
      simp only [decide_eq_true_eq] at h2
      apply h2
      apply List.mem_filter.mpr
      constructor
      · apply List.mem_map.mpr
        refine ⟨(t.id, nid), ?_, rfl⟩
        apply List.mem_filter.mpr
        refine ⟨hrel, ?_⟩
        simp only [decide_eq_true_eq]
        exact List.mem_of_mem_filter hdt
      · simp only [decide_eq_true_eq]
        exact hne
  · dsimp only
    simp only [addRelLoop_nextTagId]
  · intro i h1 h2
    dsimp only
    apply addRelLoop_rels_mono
    dsimp only
    apply List.mem_filter.mpr
    refine ⟨h1, ?_⟩
    simp only [decide_eq_true_eq]
    intro hcon
    exact h2 hcon.2
  · intro p hp hpn
    dsimp only at hp
    rcases addRelLoop_rels_inv _ _ _ _ p hp with h1 | h2
    · dsimp only at h1
      have hm := List.mem_filter.mp h1
      refine Or.inl ⟨hm.1, ?_⟩
      have h3 := hm.2
      simp only [decide_eq_true_eq] at h3
      intro hin
      exact h3 ⟨hpn, hin⟩
    · rcases h2.2 with ⟨t, htm, hid⟩
      rw [hres1] at htm
      exact Or.inr ⟨t, htm, hid⟩
  · intro x
    have h := upsertSync_refs acct tree refs atts nid db x hok
    unfold upsertSync at h
    dsimp only at h
    rw [hdel] at h
    dsimp only at h
    rw [outRefIds_attachPhase] at h
    exact h

end Blinko

namespace Blinko
theorem find?_map_replace2 (nid acct : Nat) (note1 : Note) (l : List Note)
    (h : (l.find? (fun n => decide (n.id = nid ∧ n.accountId = acct))).isSome = true)
    (h1 : note1.id = nid) (h2 : note1.accountId = acct) :
    (l.map (fun m => if m.id = nid ∧ m.accountId = acct then note1 else m)).find?
      (fun n => decide (n.id = nid ∧ n.accountId = acct)) = some note1 := by
  induction l with
  | nil => simp at h
  | cons a rest ih =>
    rw [List.map_cons]
    by_cases ha : a.id = nid ∧ a.accountId = acct
    · rw [if_pos ha, List.find?_cons]
      rw [show (decide (note1.id = nid ∧ note1.accountId = acct)) = true from by
        simp [h1, h2]]
    · rw [if_neg ha, List.find?_cons]
      rw [show (decide (a.id = nid ∧ a.accountId = acct)) = false from by simpa using ha]
      dsimp only
      apply ih
      rw [List.find?_cons] at h
      rw [show (decide (a.id = nid ∧ a.accountId = acct)) = false from by simpa using ha] at h
      exact h

theorem map_replace_idem2 (nid acct : Nat) (note1 : Note) (h1 : note1.id = nid)
    (h2 : note1.accountId = acct) (l : List Note) :
    (l.map (fun m => if m.id = nid ∧ m.accountId = acct then note1 else m)).map
      (fun m => if m.id = nid ∧ m.accountId = acct then note1 else m)
      = l.map (fun m => if m.id = nid ∧ m.accountId = acct then note1 else m) := by
  rw [List.map_map]
  apply List.map_congr_left
  intro a _
  by_cases ha : a.id = nid ∧ a.accountId = acct
  · simp only [Function.comp_apply, if_pos ha,
      if_pos (⟨h1, h2⟩ : note1.id = nid ∧ note1.accountId = acct)]
  · simp only [Function.comp_apply, if_neg ha]

/-- Claim C4 (amended): on an existing note with non-null content, under the
store invariants the code maintains (distinct positive tag ids below the id
counter, at most one tag per (name, parent, account) triple), with no stored
or input tag name containing the literal composite-key delimiter, and with
every tag-association row of the note referencing an existing tag of the
acting account, upsert is idempotent: the first call completes and a second
call with the same input returns the first call's post-state unchanged, so
the persisted tag-association set is identical with no duplicate and no
missing pairs. -/
theorem C4_upsert_tag_idempotent (acct : Nat) (tree : List TagTreeNode) (inp : UpsertInput)
    (db : DB) (nid : Nat) (c : List Char) (note : Note)
    (hwf : TagsWf db) (hdf : dbDelimFree db) (htf : treeDelimFree tree)
    (hid : inp.id = some nid) (hc : inp.content = some c)
    (hfind : findNote db nid acct = some note)
    (hrels : ∀ r ∈ db.tagsToNote, r.2 = nid →
      ∃ t ∈ db.tags, t.id = r.1 ∧ t.accountId = acct) :
    (upsertModel acct tree inp db).1 = true ∧
    upsertModel acct tree inp (upsertModel acct tree inp db).2 =
      upsertModel acct tree inp db := by
  have hnote : note.id = nid ∧ note.accountId = acct := by
    unfold findNote at hfind
    have hp := List.find?_some hfind
    simp only [decide_eq_true_eq] at hp
    exact hp
  have hrun1 : upsertModel acct tree inp db
      = upsertSync acct tree (inp.references.getD []) inp.attachments nid
          (replNotes nid acct (applyFlags inp note) db) := by
    unfold upsertModel replNotes
    rw [hid]
    dsimp only
    rw [hfind]
    dsimp only
    rw [hc]
  have hwfA : TagsWf (replNotes nid acct (applyFlags inp note) db) :=
    tagsWf_congr db _ rfl rfl hwf
  have hdfA : dbDelimFree (replNotes nid acct (applyFlags inp note) db) :=
    dbDelimFree_congr db _ rfl hdf
  have hrelsA : ∀ r ∈ (replNotes nid acct (applyFlags inp note) db).tagsToNote,
      r.2 = nid → ∃ t ∈ (replNotes nid acct (applyFlags inp note) db).tags,
        t.id = r.1 ∧ t.accountId = acct := hrels
  have run1 := upsertSync_run1 acct nid tree (inp.references.getD []) inp.attachments
    (replNotes nid acct (applyFlags inp note) db) hwfA hdfA htf hrelsA
  have hpair : upsertSync acct tree (inp.references.getD []) inp.attachments nid
      (replNotes nid acct (applyFlags inp note) db)
      = (true, (upsertSync acct tree (inp.references.getD []) inp.attachments nid
          (replNotes nid acct (applyFlags inp note) db)).2) := by
    rw [← run1.1]
  have hS1notes : (upsertSync acct tree (inp.references.getD []) inp.attachments nid
      (replNotes nid acct (applyFlags inp note) db)).2.notes
      = db.notes.map (fun m =>
          if m.id = nid ∧ m.accountId = acct then applyFlags inp note else m) :=
    upsertSync_notes acct tree (inp.references.getD []) inp.attachments nid
      (replNotes nid acct (applyFlags inp note) db)
  have hfind2 : findNote (upsertSync acct tree (inp.references.getD []) inp.attachments nid
      (replNotes nid acct (applyFlags inp note) db)).2 nid acct
      = some (applyFlags inp note) := by
    unfold findNote
    rw [hS1notes]
    apply find?_map_replace2
    · unfold findNote at hfind
      rw [hfind]
      rfl
    · exact hnote.1
    · exact hnote.2
  have hrun2 : upsertModel acct tree inp (upsertSync acct tree (inp.references.getD [])
      inp.attachments nid (replNotes nid acct (applyFlags inp note) db)).2
      = upsertSync acct tree (inp.references.getD []) inp.attachments nid
          (replNotes nid acct (applyFlags inp (applyFlags inp note))
            (upsertSync acct tree (inp.references.getD []) inp.attachments nid
              (replNotes nid acct (applyFlags inp note) db)).2) := by
    unfold upsertModel
    rw [hid]
    dsimp only
    rw [hfind2]
    dsimp only
    rw [hc]
    rfl
  have hmapidem : replNotes nid acct (applyFlags inp (applyFlags inp note))
      (upsertSync acct tree (inp.references.getD []) inp.attachments nid
        (replNotes nid acct (applyFlags inp note) db)).2
      = (upsertSync acct tree (inp.references.getD []) inp.attachments nid
          (replNotes nid acct (applyFlags inp note) db)).2 := by
    rw [replNotes]
    rw [applyFlags_idem inp note, hS1notes]
    rw [map_replace_idem2 nid acct (applyFlags inp note) hnote.1 hnote.2 db.notes]
    rw [← hS1notes]
  refine ⟨by rw [hrun1]; exact run1.1, ?_⟩
  rw [hrun1, hrun2, hmapidem]
  rw [upsertSync_stable acct nid tree (inp.references.getD []) inp.attachments _ run1.2]
  exact hpair.symm

end Blinko

namespace Blinko

/-- Claim C4 counterexample: a store holding a tag literally named a<key>2
collides with the composite key of tag a under parent 2; the second upsert
call with identical input resolves the stale key against the wrong tag,
recreates a deleted tag under a fresh id and throws, leaving a
tag-association set different from the one after the first call, so the
unconditional idempotence sentence is false. -/
theorem C4_counterexample :
    ∃ (acct : Nat) (tree : List TagTreeNode) (inp : UpsertInput) (db : DB) (nid : Nat),
      inp.id = some nid ∧ inp.content ≠ none ∧ (findNote db nid acct).isSome = true ∧
      noteTagIds (upsertModel acct tree inp (upsertModel acct tree inp db).2).2 nid ≠
        noteTagIds (upsertModel acct tree inp db).2 nid := by
  refine ⟨1, [TagTreeNode.node ['p'] [TagTreeNode.node ['a'] []]],
    ⟨some ['x'], 0, [], some 1, none, none, none, none, none⟩,
    ⟨[⟨1, 1, [], 0, false, false, false, false⟩],
      [⟨1, ['a', '<', 'k', 'e', 'y', '>', '2'], 0, 1⟩, ⟨5, ['a'], 2, 1⟩, ⟨2, ['p'], 0, 1⟩],
      [(1, 1), (5, 1), (2, 1)], [], [], 10, 100, 1⟩, 1, rfl, by decide, by decide, ?_⟩
  simp [upsertModel, findNote, applyFlags, upsertSync, joinedTags, handleAddTags,
    outRefIds, delRelIds, addRelLoop, attachPhase, addAttRows, keyOf,
    natToChars_lt10 0 (by omega), natToChars_lt10 2 (by omega), parsedLookup,
    splitAtDelim, firstPart, charsToNat?, startsWithPat, keyDelim, findOrCreate, findTag,
    ensureRel, pidOf, noteTagIds, addRelStep,
    show isDigitCh (Char.ofNat 48) = true from by decide,
    show isDigitCh (Char.ofNat 50) = true from by decide,
    show isDigitCh ('2' : Char) = true from by decide]

end Blinko

namespace Blinko

/-- Claim C4 witness: the amended idempotence theorem applied at a concrete
store with one note, no prior tags, and a one-node delimiter-free tag tree. -/
theorem C4_witness :
    (upsertModel 1 [TagTreeNode.node ['t'] []]
      ⟨some ['x'], 0, [], some 1, none, none, none, none, none⟩
      ⟨[⟨1, 1, [], 0, false, false, false, false⟩], [], [], [], [], 1, 100, 1⟩).1 = true ∧
    upsertModel 1 [TagTreeNode.node ['t'] []]
      ⟨some ['x'], 0, [], some 1, none, none, none, none, none⟩
      (upsertModel 1 [TagTreeNode.node ['t'] []]
        ⟨some ['x'], 0, [], some 1, none, none, none, none, none⟩
        ⟨[⟨1, 1, [], 0, false, false, false, false⟩], [], [], [], [], 1, 100, 1⟩).2 =
      upsertModel 1 [TagTreeNode.node ['t'] []]
        ⟨some ['x'], 0, [], some 1, none, none, none, none, none⟩
        ⟨[⟨1, 1, [], 0, false, false, false, false⟩], [], [], [], [], 1, 100, 1⟩ :=
  C4_upsert_tag_idempotent 1 [TagTreeNode.node ['t'] []]
    ⟨some ['x'], 0, [], some 1, none, none, none, none, none⟩
    ⟨[⟨1, 1, [], 0, false, false, false, false⟩], [], [], [], [], 1, 100, 1⟩
    1 ['x'] ⟨1, 1, [], 0, false, false, false, false⟩
    ⟨by simp, by simp, by simp, by decide, by simp⟩
    (by intro t ht; simp at ht)
    (by intro n hn; simp [forestNames] at hn; rw [hn]; decide)
    rfl rfl (by decide) (by intro r hr; simp at hr)

end Blinko
